import Mathlib

set_option maxHeartbeats 1000000

/-!
Verification of `qpkg.py`: a tool that packages a directory tree into a
zip container while recording symbolic links in a `links.json` manifest,
and unpacks such a container, replaying the symlinks.

The embedding models the filesystem as a flat association list from
absolute paths (lists of name components) to nodes (regular file,
directory with a readability flag, or symlink holding a raw target
string).  Directory-walk enumeration order is abstracted (all statements
below are order-insensitive); `os.walk(..., followlinks=False)` with its
default `onerror=None` is modelled as "every entry whose chain of proper
ancestors below the walk root consists of readable directories", which
is the documented behaviour (errors from `scandir` are ignored, symlinked
directories are listed but not entered).  Python `json` serialization is
treated as an injective constructor (`Data.jsonLinks`), and the zip
container as a list of named entries (`Data.zip`).
-/

namespace Qpkg

/-! ## Path strings

Paths cross the pack/unpack boundary as strings joined with `/` (the
arcnames and the manifest keys).  We model the string-level split/join
at the character level so that the round-trip can be proved.
-/

/-- Split a character list on the slash character; pieces may be empty. -/
def splitChars : List Char → List (List Char)
  | [] => [[]]
  | c :: rest =>
    let r := splitChars rest
    if c = '/' then [] :: r
    else (c :: r.headI) :: r.tail

/-- Join a list of character lists with slashes. -/
def joinChars : List (List Char) → List Char
  | [] => []
  | [c] => c
  | c :: rest => c ++ '/' :: joinChars rest

/-- Model of how the Python code turns a path string into components:
splitting on `/` and discarding empty pieces (so a leading `/` or a
doubled `/` contributes nothing). -/
def splitPath (s : String) : List String :=
  ((splitChars s.data).filter (fun c => c ≠ [])).map (fun c => String.mk c)

/-- Join path components with `/` (POSIX separator, as used by the code). -/
def joinPath (l : List String) : String :=
  String.mk (joinChars (l.map String.data))

/-- Model of `os.path.isabs`: the string starts with a slash. -/
def isAbs (s : String) : Bool :=
  match s.data with
  | [] => false
  | c :: _ => c = '/'

/-- A legal filesystem name component: nonempty, not `.` or `..`,
and containing no slash. -/
def validName (s : String) : Prop :=
  s ≠ "" ∧ s ≠ "." ∧ s ≠ ".." ∧ '/' ∉ s.data

instance : DecidablePred validName := fun s => by
  unfold validName; infer_instance

/-- A legal relative component path: nonempty list of legal names. -/
def validComps (p : List String) : Prop :=
  p ≠ [] ∧ ∀ c ∈ p, validName c

instance : DecidablePred validComps := fun p => by
  unfold validComps; infer_instance



/-! ## Filesystem model

A filesystem is a flat association list from absolute paths (component
lists) to nodes.  The root `[]` is always an implicit readable directory.
File contents are `Data`: raw bytes, a parsed `links.json` mapping
(Python `json` serialization treated as an injective constructor), or a
zip container (a list of named entries, as written by `zipfile`).
-/

/-- Contents of a regular file or of a zip entry. -/
inductive Data where
  | raw : List Nat → Data
  | jsonLinks : List (String × String) → Data
  | zip : List (String × Data) → Data

/-- A filesystem node: regular file, directory (with a readability flag
used to model `EACCES` on `scandir`), or symlink storing a raw target. -/
inductive Node where
  | file : Data → Node
  | dir : Bool → Node
  | symlink : String → Node

instance : Inhabited Data := ⟨.raw []⟩

instance : Inhabited Node := ⟨.dir true⟩

abbrev FS := List (List String × Node)

def assocFind : FS → List String → Option Node
  | [], _ => none
  | e :: rest, p => if e.1 = p then some e.2 else assocFind rest p

/-- Look a path up in the filesystem (no symlink following).  The root
is an implicit directory. -/
def fsLookup (fs : FS) (p : List String) : Option Node :=
  if p = [] then some (.dir true) else assocFind fs p

/-- Model of `unlink`: drop the entry at the given path. -/
def fsRemove : FS → List String → FS
  | [], _ => []
  | e :: rest, p => if e.1 = p then fsRemove rest p else e :: fsRemove rest p

/-- Install a node at a path (used for file writes, `mkdir`, `symlink`). -/
def fsSet (fs : FS) (p : List String) (n : Node) : FS :=
  (p, n) :: fsRemove fs p



/-! ## Symlink resolution

Model of `pathlib.Path.resolve(strict=False)`: process the components
left to right against the already-resolved prefix, following symlinks
(with fuel to bound symlink chains — exhaustion models `ELOOP`), treating
`.` and `..` after resolution of the prefix, and appending nonexistent
components verbatim. -/

/-- The raw target of the symlink at a path, if that node is a symlink. -/
def symAt (fs : FS) (p : List String) : Option String :=
  match fsLookup fs p with
  | some (.symlink t) => some t
  | _ => none

def resolveComps (fs : FS) : Nat → List String → List String → Option (List String)
  | _, done, [] => some done
  | 0, _, _ :: _ => none
  | fuel + 1, done, c :: rest =>
    if c = "." then resolveComps fs fuel done rest
    else if c = ".." then resolveComps fs fuel done.dropLast rest
    else
      match symAt fs (done ++ [c]) with
      | some t =>
        if isAbs t then resolveComps fs fuel [] (splitPath t ++ rest)
        else resolveComps fs fuel done (splitPath t ++ rest)
      | none => resolveComps fs fuel (done ++ [c]) rest

/-- Generous fuel: enough for any resolution that does not loop. -/
def resolveFuel (fs : FS) (p : List String) : Nat :=
  40 * (fs.foldr (fun e a => e.1.length + (match e.2 with
    | .symlink t => (splitPath t).length + 1
    | _ => 0) + 1 + a) 0 + p.length + 1)

/-- Model of `Path(p).resolve(strict=False)` for an absolute component
path `p`. -/
def resolvePath (fs : FS) (p : List String) : Option (List String) :=
  resolveComps fs (resolveFuel fs p) [] p

/-- Model of `Path.exists()` (follows symlinks). -/
def fsExistsFollow (fs : FS) (p : List String) : Bool :=
  match resolvePath fs p with
  | some rp => (fsLookup fs rp).isSome
  | none => false

/-- Model of `Path.is_dir()` (follows symlinks). -/
def pathIsDir (fs : FS) (p : List String) : Bool :=
  match resolvePath fs p with
  | some rp =>
    match fsLookup fs rp with
    | some (.dir _) => true
    | _ => false
  | none => false

/-! ## `os.path.relpath` (lexical, both arguments absolute and resolved) -/

def relpathComps : List String → List String → List String
  | p, [] => p
  | [], s => s.map (fun _ => "..")
  | a :: p, b :: s =>
    if a = b then relpathComps p s
    else ((b :: s).map (fun _ => "..")) ++ a :: p

/-- `os.path.relpath(p, start)` on component lists; the result for equal
paths is `.`. -/
def relpathAbs (p s : List String) : List String :=
  match relpathComps p s with
  | [] => ["."]
  | r => r

/-! ## The program: `qpkg.py`

Each definition below is a direct translation of the corresponding
Python function, with the OS services (`os.walk`, `os.readlink`,
`Path.resolve`, `zipfile`) replaced by their models above.  Errors that
the Python code lets propagate become error values threaded through
explicit `(Option Err × FS)` state-passing, so that the partially
mutated filesystem on the failure path is observable. -/

/-- Model of `is_valid_symlink` (qpkg.py line 14): `Path.is_symlink()`. -/
def is_valid_symlink (fs : FS) (p : List String) : Bool :=
  match fsLookup fs p with
  | some (.symlink _) => true
  | _ => false

/-- Model of `get_relative_link_target` (qpkg.py lines 21-40).
`link_path` is the absolute path of the symlink; `source_dir` is the
source root, resolved again here exactly as line 24 does.  A relative
raw target is returned unchanged; an absolute one is joined on the
parent (`Path(link_path.parent, target)`, which for an absolute target
is just the target), resolved, and re-expressed with `os.path.relpath`
against the source root.  `None` on a read/resolve failure (the
`except OSError` branch). -/
def get_relative_link_target (fs : FS) (link_path source_dir : List String) :
    Option String :=
  match resolvePath fs source_dir with
  | none => none
  | some sd =>
    match fsLookup fs link_path with
    | some (.symlink target) =>
      if isAbs target = false then some target
      else
        let joined := if isAbs target then splitPath target
                      else link_path.dropLast ++ splitPath target
        match resolvePath fs joined with
        | some target_path => some (joinPath (relpathAbs target_path sd))
        | none => none
    | _ => none

/-! ### The tree scan (`os.walk`, qpkg.py lines 51-65 and 80-86)

`os.walk(source_dir, followlinks=False)` with the default
`onerror=None` enumerates exactly those entries all of whose proper
ancestors strictly below (and including) the walk root are readable
directories; unreadable directories still appear in their parent's
listing but their own listing is silently skipped, and symlinked
directories are listed but never entered.  Enumeration order is
abstracted (the scan's consumers are order-insensitive). -/

/-- The proper prefixes of `p` that extend `S` (including `S` itself),
in increasing length order. -/
def properPrefixesFrom (S p : List String) : List (List String) :=
  (List.range (p.length - S.length)).map (fun k => S ++ (p.drop S.length).take k)

/-- Whether the node at `q` is a readable directory. -/
def isDirTrueAt (fs : FS) (q : List String) : Bool :=
  match fsLookup fs q with
  | some (.dir true) => true
  | _ => false

/-- Whether a walk rooted at `S` reaches the entry at `p`. -/
def visibleFrom (fs : FS) (S p : List String) : Bool :=
  (properPrefixesFrom S p).all (fun q => isDirTrueAt fs q)

/-- All entries enumerated by `os.walk(S, followlinks=False)` (both the
`files` and `dirs` lists of every visited triple, as absolute paths). -/
def scannedEntries (fs : FS) (S : List String) : List (List String × Node) :=
  fs.filter (fun e => S.isPrefixOf e.1 && !(e.1 == S) && visibleFrom fs S e.1)

/-- The symlink manifest collected by the first walk (qpkg.py lines
48-65): for every scanned entry that is a symlink, map its
source-relative path string to `get_relative_link_target`, skipping
entries for which that returns `None`. -/
def linksOf (fs : FS) (S : List String) : List (String × String) :=
  (scannedEntries fs S).filterMap (fun e =>
    if is_valid_symlink fs e.1 then
      (get_relative_link_target fs e.1 S).map
        (fun t => (joinPath (e.1.drop S.length), t))
    else none)

/-- The file entries added by the second walk (qpkg.py lines 80-86):
every scanned regular (non-symlink) file, under its source-relative
arcname.  Note this walk runs after `links.json` has been written into
the source directory, so it is applied to that mutated filesystem. -/
def fileEntriesOf (fs : FS) (S : List String) : List (String × Data) :=
  (scannedEntries fs S).filterMap (fun e =>
    if is_valid_symlink fs e.1 then none
    else match e.2 with
      | .file d => some (joinPath (e.1.drop S.length), d)
      | _ => none)

inductive PkgErr where
  | resolveFailed : PkgErr
  | zipWriteFailed : PkgErr

/-- The archive member list a successful pack produces: the explicit
`links.json` manifest entry (line 77) followed by the file entries of
the second walk — which sees the `links.json` temporary just written
into the source directory. -/
def packEntries (fs : FS) (S : List String) : List (String × Data) :=
  let links := linksOf fs S
  let fs1 := fsSet fs (S ++ ["links.json"]) (.file (.jsonLinks links))
  ("links.json", Data.jsonLinks links) :: fileEntriesOf fs1 S

/-- Model of `package_directory` (qpkg.py lines 42-90).  Scans for
symlinks, writes the manifest as `links.json` inside the source
directory, writes the zip (the `zipOk` flag models whether the archive
write raises), and unlinks the temporary — the unlink happens only on
the success path, since the code has no `try/finally`.  Returns the
archive member list and the resulting filesystem. -/
def package_directory (fs : FS) (sourceArg : List String) (zipOk : Bool) :
    Except PkgErr (List (String × Data)) × FS :=
  match resolvePath fs sourceArg with
  | none => (.error .resolveFailed, fs)
  | some S =>
    let links := linksOf fs S
    let fs1 := fsSet fs (S ++ ["links.json"]) (.file (.jsonLinks links))
    if zipOk then
      (.ok (("links.json", Data.jsonLinks links) :: fileEntriesOf fs1 S),
       fsRemove fs1 (S ++ ["links.json"]))
    else (.error .zipWriteFailed, fs1)

inductive UnpackErr where
  | resolveFailed : UnpackErr
  | mkdirConflict : UnpackErr
  | zipOpenFailed : UnpackErr
  | manifestMissing : UnpackErr
  | manifestNotJson : UnpackErr
  | extractConflict : UnpackErr
  | unlinkIsDir : UnpackErr

/-- Model of `mkdir(parents=True, exist_ok=True)` / `os.makedirs`:
walk `todo` below `done`, creating missing directories; an existing
non-directory raises, leaving the already created ancestors behind. -/
def mkdirFold (fs : FS) (done : List String) : List String → Option UnpackErr × FS
  | [] => (none, fs)
  | c :: rest =>
    let q := done ++ [c]
    match fsLookup fs q with
    | some (.dir _) => mkdirFold fs q rest
    | some _ => (some .mkdirConflict, fs)
    | none => mkdirFold (fsSet fs q (.dir true)) q rest

/-- Model of `zf.extract(member, target_dir)`: create the member's
parent directories below the target, then write the file.  A directory
occupant makes the write raise; a symlink occupant is followed (as
`open` would). -/
def extractMember (fs : FS) (T : List String) (name : String) (d : Data) :
    Option UnpackErr × FS :=
  let comps := splitPath name
  match mkdirFold fs T comps.dropLast with
  | (some e, fs1) => (some e, fs1)
  | (none, fs1) =>
    let p := T ++ comps
    match fsLookup fs1 p with
    | some (.dir _) => (some .extractConflict, fs1)
    | some (.symlink _) =>
      match resolvePath fs1 p with
      | some rp => (none, fsSet fs1 rp (.file d))
      | none => (some .extractConflict, fs1)
    | _ => (none, fsSet fs1 p (.file d))

/-- The extraction loop (qpkg.py lines 109-112): every member except
those named `links.json`, in order; an extraction failure propagates. -/
def extractAll (fs : FS) (T : List String) :
    List (String × Data) → Option UnpackErr × FS
  | [] => (none, fs)
  | (n, d) :: rest =>
    if n = "links.json" then extractAll fs T rest
    else match extractMember fs T n d with
      | (some e, fs1) => (some e, fs1)
      | (none, fs1) => extractAll fs1 T rest

/-- Lines 114-118: remove `links.json` from the top of the target if
`Path.exists()` holds there (this check follows symlinks, so a dangling
symlink named `links.json` survives, and a directory occupant makes
`unlink` raise `EISDIR`). -/
def removeLinksJsonAt (fs : FS) (T : List String) : Option UnpackErr × FS :=
  let p := T ++ ["links.json"]
  match fsLookup fs p with
  | some (.file _) => (none, fsRemove fs p)
  | some (.dir _) => (some .unlinkIsDir, fs)
  | some (.symlink _) =>
    if fsExistsFollow fs p then (none, fsRemove fs p) else (none, fs)
  | none => (none, fs)

/-- One iteration of the restore loop (qpkg.py lines 122-138): join the
manifest path onto the target (`Path./` replaces the base when the key
is absolute), make the parent directories, unlink an occupant
(`Path.unlink` raises on a directory occupant, and that exception is
not caught), then create the symlink; only the `os.symlink` call is
inside the `try`, a failure there (modelled by `ok = false`) being
logged and the entry skipped. -/
def restoreOne (fs : FS) (T : List String) (lp lt : String) (ok : Bool) :
    Option UnpackErr × FS :=
  let comps := splitPath lp
  let p := if isAbs lp then comps else T ++ comps
  match mkdirFold fs [] p.dropLast with
  | (some e, fs1) => (some e, fs1)
  | (none, fs1) =>
    match fsLookup fs1 p with
    | some (.dir _) => (some .unlinkIsDir, fs1)
    | some _ =>
      let fs2 := fsRemove fs1 p
      (none, if ok then fsSet fs2 p (.symlink lt) else fs2)
    | none => (none, if ok then fsSet fs1 p (.symlink lt) else fs1)

/-- The restore loop over the manifest; a `mkdir`/`unlink` failure
aborts the remaining entries, while symlink-creation failures (the
`symlinkOk` oracle) do not. -/
def restoreAll (fs : FS) (T : List String) (symlinkOk : String → Bool) :
    List (String × String) → Option UnpackErr × FS
  | [] => (none, fs)
  | (lp, lt) :: rest =>
    match restoreOne fs T lp lt (symlinkOk lp) with
    | (some e, fs1) => (some e, fs1)
    | (none, fs1) => restoreAll fs1 T symlinkOk rest

/-- Model of `unpackage_directory` (qpkg.py lines 92-140): resolve the
two paths, create the target directory (line 100 — before the container
is even opened), open the zip, read the manifest (`zf.read` raises
`KeyError` when no member is named `links.json`; `zipfile` keeps the
last member under a duplicated name), extract all other members, delete
a top-level `links.json` from the target, and replay the manifest.
The `symlinkOk` oracle tells which `os.symlink` calls succeed. -/
def unpackage_directory (fs : FS) (sourceZip targetArg : List String)
    (symlinkOk : String → Bool) : Option UnpackErr × FS :=
  match resolvePath fs sourceZip, resolvePath fs targetArg with
  | some SZ, some T =>
    match mkdirFold fs [] T with
    | (some e, fs1) => (some e, fs1)
    | (none, fs1) =>
      match fsLookup fs1 SZ with
      | some (.file (.zip entries)) =>
        match (entries.filter (fun e => e.1 == "links.json")).getLast? with
        | none => (some .manifestMissing, fs1)
        | some me =>
          match me.2 with
          | .jsonLinks links =>
            match extractAll fs1 T entries with
            | (some e, fs2) => (some e, fs2)
            | (none, fs2) =>
              match removeLinksJsonAt fs2 T with
              | (some e, fs3) => (some e, fs3)
              | (none, fs3) => restoreAll fs3 T symlinkOk links
          | _ => (some .manifestNotJson, fs1)
      | _ => (some .zipOpenFailed, fs1)
  | _, _ => (some .resolveFailed, fs)

/-! ### `main` (qpkg.py lines 142-162) -/

/-- Model of `PurePath.suffix`: the part of the final component from its
last dot, empty when there is no dot, the dot is leading (hidden file),
or the dot is trailing. -/
def pathSuffix (s : String) : String :=
  match (splitPath s).getLast? with
  | none => ""
  | some name =>
    let rev := name.data.reverse
    let pre := rev.takeWhile (fun c => c ≠ '.')
    if pre.length = rev.length then ""
    else if pre.length + 1 = rev.length then ""
    else if pre = [] then ""
    else String.mk ('.' :: pre.reverse)

/-- Model of `main` (qpkg.py lines 142-162), for absolute argument
strings.  Dispatches on `source_path.is_dir()` and the `.zip` suffixes,
runs the selected operation with every exception caught at the top
level (`exit(1)`), writes the produced archive at the resolved target
on a successful pack, and returns the exit status with the final
filesystem. -/
def main (fs : FS) (sourceArg targetArg : String) (zipOk : Bool)
    (symlinkOk : String → Bool) : Nat × FS :=
  let sp := splitPath sourceArg
  let tp := splitPath targetArg
  if pathIsDir fs sp && (pathSuffix targetArg == ".zip") then
    match package_directory fs sp zipOk with
    | (.ok zentries, fs1) =>
      match resolvePath fs1 tp with
      | some tz => (0, fsSet fs1 tz (.file (.zip zentries)))
      | none => (1, fs1)
    | (.error _, fs1) => (1, fs1)
  else if (pathSuffix sourceArg == ".zip") && (pathIsDir fs tp || !(fsExistsFollow fs tp)) then
    match unpackage_directory fs sp tp symlinkOk with
    | (none, fs1) => (0, fs1)
    | (some _, fs1) => (1, fs1)
  else (1, fs)

/-! ## Well-formedness and auxiliary predicates -/

/-- A well-formed filesystem: distinct entry paths, legal name
components everywhere, and every proper prefix of an entry's path is a
readable directory (so the world is a forest of readable directories —
the setting of the round-trip claim). -/
def wfAll (fs : FS) : Prop :=
  (fs.map (fun e => e.1)).Nodup ∧
  ∀ e ∈ fs, validComps e.1 ∧
    ∀ q ∈ properPrefixesFrom [] e.1, isDirTrueAt fs q = true

instance : DecidablePred wfAll := fun fs => by
  unfold wfAll; infer_instance

/-- Whether a path holds a directory (any readability) or nothing —
the precondition under which `mkdir -p` style creation succeeds. -/
def isDirOrNoneAt (fs : FS) (q : List String) : Bool :=
  match fsLookup fs q with
  | some (.dir _) => true
  | none => true
  | _ => false

/-- Two component paths with no prefix relation in either direction. -/
def incomp (a b : List String) : Prop := ¬(a <+: b) ∧ ¬(b <+: a)

instance : ∀ a b, Decidable (incomp a b) := fun a b => by
  unfold incomp; infer_instance

/-- The symlink-creation oracle under which every `os.symlink` succeeds. -/
def alwaysOk : String → Bool := fun _ => true

/-- Whether a path holds a directory of any readability. -/
def isDirAnyAt (fs : FS) (q : List String) : Bool :=
  match fsLookup fs q with
  | some (.dir _) => true
  | _ => false

/-- A target-relative position `r` is accounted for by the extraction
and restore bookkeeping: it carries one of the placed files or symlinks,
is one of the explicitly created directories, or lies properly above a
placed file or symlink. -/
def posAccounted (r : List String) (files : List (List String × Data))
    (syms : List (List String × String)) (dirs : List (List String)) : Prop :=
  r ∈ files.map (fun fd => fd.1) ∨ r ∈ syms.map (fun st => st.1) ∨ r ∈ dirs ∨
  ∃ p ∈ files.map (fun fd => fd.1) ++ syms.map (fun st => st.1),
    r <+: p ∧ r ≠ p

/-- Invariant describing the world below the extraction target `T`:
the listed files, symlinks and created directories are present (with
readable directories along every placed path), every filesystem entry
below `T` is accounted for by the bookkeeping, and the ancestors of `T`
are directories. -/
def underSt (w : FS) (T : List String) (files : List (List String × Data))
    (syms : List (List String × String)) (dirs : List (List String)) : Prop :=
  fsLookup w T = some (.dir true) ∧
  (∀ fd ∈ files, fsLookup w (T ++ fd.1) = some (.file fd.2) ∧
    ∀ r ∈ properPrefixesFrom [] fd.1, fsLookup w (T ++ r) = some (.dir true)) ∧
  (∀ st ∈ syms, fsLookup w (T ++ st.1) = some (.symlink st.2) ∧
    ∀ r ∈ properPrefixesFrom [] st.1, fsLookup w (T ++ r) = some (.dir true)) ∧
  (∀ r ∈ dirs, fsLookup w (T ++ r) = some (.dir true)) ∧
  (∀ e ∈ w, T <+: e.1 → T ≠ e.1 → posAccounted (e.1.drop T.length) files syms dirs) ∧
  (∀ q ∈ properPrefixesFrom [] T, isDirAnyAt w q = true)

/-- The target-relative file placements extraction performs for a member
list: every member not named `links.json`, at the components of its
name, with its data. -/
def extractedOf (es : List (String × Data)) : List (List String × Data) :=
  (es.filter (fun e => !(e.1 == "links.json"))).map (fun e => (splitPath e.1, e.2))

/-- The symlink placements the restore loop performs: the manifest
entries whose `os.symlink` call succeeds. -/
def restoredOf (links : List (String × String)) (okf : String → Bool) :
    List (List String × String) :=
  links.filterMap (fun e => if okf e.1 then some (splitPath e.1, e.2) else none)

/-- The directories the restore loop creates: all proper prefixes of
every manifest path. -/
def linkDirsOf (links : List (String × String)) : List (List String) :=
  (links.map (fun e => properPrefixesFrom [] (splitPath e.1))).flatten

/-! ## Concrete worlds used in the closed statements below -/

/-- A source directory `/s` that is empty. -/
def fsEmptyDir : FS := [(["s"], .dir true)]

/-- A source `/s` with an unreadable subdirectory `/s/sub` holding a file. -/
def fsUnread : FS :=
  [(["s"], .dir true), (["s", "sub"], .dir false),
   (["s", "sub", "f"], .file (.raw [1]))]

/-- The round-trip example world: source `/src` with a file, a relative
symlink (with a non-normalized target), an absolute symlink in a
subdirectory, and the out-of-tree target `/etc/hosts` of that symlink. -/
def fsRT : FS :=
  [(["src"], .dir true),
   (["src", "a.txt"], .file (.raw [104, 105])),
   (["src", "link_rel"], .symlink "a.txt"),
   (["src", "weird"], .symlink "../x/../y"),
   (["src", "sub"], .dir true),
   (["src", "sub", "link_abs"], .symlink "/etc/hosts"),
   (["etc"], .dir true),
   (["etc", "hosts"], .file (.raw [7]))]

/-- A world holding a container whose manifest maps `d` (occupied by a
directory in the existing target `/t`) and then `z`. -/
def fsDirOcc : FS :=
  [(["a.zip"], .file (.zip [("links.json",
      .jsonLinks [("d", "x"), ("z", "y")])])),
   (["t"], .dir true), (["t", "d"], .dir true)]

/-- A world holding a container whose single manifest entry collides
with a directory occupant in the target. -/
def fsDirOcc1 : FS :=
  [(["a.zip"], .file (.zip [("links.json", .jsonLinks [("d", "x")])])),
   (["t"], .dir true), (["t", "d"], .dir true)]

/-- A target directory with a regular-file occupant at `f`. -/
def fsFileOcc : FS := [(["t"], .dir true), (["t", "f"], .file (.raw [3]))]

/-- A world holding a container with no `links.json` member. -/
def fsNoManifest : FS := [(["a.zip"], .file (.zip [("x", .raw [5])]))]

/-- A world with a container and a pre-existing regular file
`links.json` (of arbitrary content `d0`) at the top of the existing
target directory; the archive itself never mentions that file. -/
def fsPreLJd (d0 : Data) : FS :=
  [(["a.zip"], .file (.zip
      [("links.json", .jsonLinks [("l", "a.txt")]),
       ("b.txt", .raw [9])])),
   (["t"], .dir true), (["t", "links.json"], .file d0)]

/-- The same world at a concrete occupant content. -/
def fsPreLJ : FS := fsPreLJd (.raw [1, 2])

/-! ## Helper lemmas: path strings -/

theorem splitChars_ne_nil (l : List Char) : splitChars l ≠ [] := by
  cases l with
  | nil => simp [splitChars]
  | cons c rest =>
    simp only [splitChars]
    by_cases h : c = '/' <;> simp [h]

theorem splitChars_noslash (x : List Char) (hx : '/' ∉ x) :
    ∀ l, splitChars (x ++ l) = (x ++ (splitChars l).headI) :: (splitChars l).tail := by
  induction x with
  | nil =>
    intro l
    simp only [List.nil_append]
    cases hsc : splitChars l with
    | nil => exact absurd hsc (splitChars_ne_nil l)
    | cons a r => simp
  | cons c x ih =>
    intro l
    have hc : c ≠ '/' := by
      intro h; exact hx (by simp [h])
    have hx' : '/' ∉ x := by
      intro h; exact hx (by simp [h])
    simp only [List.cons_append, splitChars, if_neg hc]
    rw [show x.append l = x ++ l from rfl, ih hx' l]
    simp

theorem splitChars_slash_cons (l : List Char) :
    splitChars ('/' :: l) = [] :: splitChars l := by
  simp [splitChars]

/-- Splitting after joining recovers the components, provided every
component is nonempty and slash-free. -/
theorem splitChars_joinChars (ps : List (List Char))
    (h : ∀ p ∈ ps, p ≠ [] ∧ '/' ∉ p) (hne : ps ≠ []) :
    (splitChars (joinChars ps)).filter (fun c => c ≠ []) = ps := by
  induction ps with
  | nil => exact absurd rfl hne
  | cons p rest ih =>
    cases rest with
    | nil =>
      obtain ⟨hp, hps⟩ := h p (by simp)
      simp only [joinChars]
      have := splitChars_noslash p hps []
      simp only [List.append_nil] at this
      rw [this]
      simp [splitChars, hp]
    | cons q rest' =>
      obtain ⟨hp, hps⟩ := h p (by simp)
      have hrest : ∀ r ∈ q :: rest', r ≠ [] ∧ '/' ∉ r := by
        intro r hr; exact h r (by simp [hr])
      simp only [joinChars]
      rw [splitChars_noslash p hps ('/' :: joinChars (q :: rest'))]
      rw [splitChars_slash_cons]
      simp only [List.headI, List.tail]
      rw [List.filter_cons]
      have hpne : (p ++ []) ≠ [] := by simpa using hp
      simp only [List.append_nil]
      rw [if_pos (by simpa using hp)]
      congr 1
      exact ih hrest (by simp)

theorem stringMk_data (s : String) : String.mk s.data = s := rfl

theorem data_stringMk (l : List Char) : (String.mk l).data = l := rfl

theorem string_ne_empty_iff_data (s : String) : s ≠ "" ↔ s.data ≠ [] := by
  constructor
  · intro h h'
    apply h
    cases s with
    | mk d => cases d with
      | nil => rfl
      | cons a b => simp at h'
  · intro h h'
    apply h
    rw [h']

/-- Round trip of the string representation of a relative path. -/
theorem splitPath_joinPath (p : List String) (h : validComps p) :
    splitPath (joinPath p) = p := by
  obtain ⟨hne, hval⟩ := h
  unfold splitPath joinPath
  rw [data_stringMk]
  rw [splitChars_joinChars (p.map String.data)]
  · rw [List.map_map]
    have : (fun c => String.mk c) ∘ String.data = id := by
      funext s; exact stringMk_data s
    rw [this, List.map_id]
  · intro c hc
    rw [List.mem_map] at hc
    obtain ⟨s, hs, rfl⟩ := hc
    obtain ⟨h1, _, _, h4⟩ := hval s hs
    exact ⟨(string_ne_empty_iff_data s).mp h1, h4⟩
  · simpa using hne

theorem joinPath_inj {p q : List String} (hp : validComps p) (hq : validComps q)
    (h : joinPath p = joinPath q) : p = q := by
  have := splitPath_joinPath p hp
  rw [h, splitPath_joinPath q hq] at this
  exact this.symm

/-- A joined valid relative path is not absolute. -/
theorem isAbs_joinPath (p : List String) (h : validComps p) :
    isAbs (joinPath p) = false := by
  obtain ⟨hne, hval⟩ := h
  cases p with
  | nil => exact absurd rfl hne
  | cons c rest =>
    obtain ⟨h1, _, _, h4⟩ := hval c (by simp)
    have hd : c.data ≠ [] := (string_ne_empty_iff_data c).mp h1
    unfold joinPath isAbs
    rw [data_stringMk]
    cases hcd : c.data with
    | nil => exact absurd hcd hd
    | cons a as =>
      have ha : a ≠ '/' := by
        intro hcontra
        apply h4
        rw [hcd, hcontra]
        simp
      cases rest with
      | nil => simp [joinChars, hcd, ha]
      | cons q r => simp [joinChars, hcd, ha]

/-! ## Helper lemmas: the filesystem association list -/

theorem assocFind_eq_none {fs : FS} {p : List String} :
    assocFind fs p = none ↔ ∀ e ∈ fs, e.1 ≠ p := by
  induction fs with
  | nil => simp [assocFind]
  | cons e rest ih =>
    simp only [assocFind]
    by_cases h : e.1 = p
    · rw [if_pos h]
      constructor
      · intro hc; simp at hc
      · intro hall; exact absurd h (hall e (by simp))
    · simp [h, ih]

theorem assocFind_remove_self (fs : FS) (p : List String) :
    assocFind (fsRemove fs p) p = none := by
  induction fs with
  | nil => simp [fsRemove, assocFind]
  | cons e rest ih =>
    simp only [fsRemove]
    by_cases h : e.1 = p
    · simp [h, ih]
    · simp [assocFind, h, ih]

theorem assocFind_remove_ne (fs : FS) (p q : List String) (h : q ≠ p) :
    assocFind (fsRemove fs p) q = assocFind fs q := by
  induction fs with
  | nil => simp [fsRemove]
  | cons e rest ih =>
    simp only [fsRemove]
    by_cases he : e.1 = p
    · rw [if_pos he, ih]
      have : e.1 ≠ q := by rw [he]; exact fun hc => h hc.symm
      simp [assocFind, this]
    · rw [if_neg he]
      simp only [assocFind]
      by_cases heq : e.1 = q
      · simp [heq]
      · simp [heq, ih]

theorem fsLookup_set_self (fs : FS) (p : List String) (n : Node) (h : p ≠ []) :
    fsLookup (fsSet fs p n) p = some n := by
  simp [fsLookup, fsSet, assocFind, h]

theorem fsLookup_set_ne (fs : FS) (p q : List String) (n : Node) (h : q ≠ p) :
    fsLookup (fsSet fs p n) q = fsLookup fs q := by
  unfold fsLookup fsSet
  by_cases hq : q = []
  · simp [hq]
  · simp only [if_neg hq]
    simp only [assocFind]
    rw [if_neg (fun hc => h hc.symm)]
    exact assocFind_remove_ne fs p q h

theorem fsLookup_remove_self (fs : FS) (p : List String) (h : p ≠ []) :
    fsLookup (fsRemove fs p) p = none := by
  simp [fsLookup, h, assocFind_remove_self]

theorem fsLookup_remove_ne (fs : FS) (p q : List String) (h : q ≠ p) :
    fsLookup (fsRemove fs p) q = fsLookup fs q := by
  unfold fsLookup
  by_cases hq : q = []
  · simp [hq]
  · simp [hq, assocFind_remove_ne fs p q h]

theorem fsRemove_of_not_mem (fs : FS) (p : List String)
    (h : ∀ e ∈ fs, e.1 ≠ p) : fsRemove fs p = fs := by
  induction fs with
  | nil => rfl
  | cons e rest ih =>
    have he : e.1 ≠ p := h e (by simp)
    simp only [fsRemove, if_neg he]
    rw [ih (fun e' he' => h e' (by simp [he']))]

theorem fsLookup_of_mem {fs : FS} {p : List String} {n : Node}
    (hmem : (p, n) ∈ fs) (hnd : (fs.map (fun e => e.1)).Nodup) (hp : p ≠ []) :
    fsLookup fs p = some n := by
  unfold fsLookup
  rw [if_neg hp]
  induction fs with
  | nil => simp at hmem
  | cons e rest ih =>
    simp only [List.map_cons, List.nodup_cons] at hnd
    rcases List.mem_cons.mp hmem with h | h
    · simp [assocFind, ← h]
    · have hne : e.1 ≠ p := by
        intro hc
        exact hnd.1 (hc ▸ (List.mem_map.mpr ⟨(p, n), h, rfl⟩))
      simp only [assocFind, if_neg hne]
      exact ih h hnd.2

theorem mem_of_fsLookup {fs : FS} {p : List String} {n : Node}
    (h : fsLookup fs p = some n) (hp : p ≠ []) : (p, n) ∈ fs := by
  unfold fsLookup at h
  rw [if_neg hp] at h
  induction fs with
  | nil => simp [assocFind] at h
  | cons e rest ih =>
    simp only [assocFind] at h
    by_cases he : e.1 = p
    · rw [if_pos he] at h
      injection h with h
      have hep : e = (p, n) := by
        cases e
        simp only at he h
        simp [he, h]
      rw [hep]
      simp
    · rw [if_neg he] at h
      exact List.mem_cons_of_mem _ (ih h)

theorem mem_fsRemove {fs : FS} {p : List String} {e : List String × Node}
    (h : e ∈ fsRemove fs p) : e ∈ fs ∧ e.1 ≠ p := by
  induction fs with
  | nil => simp [fsRemove] at h
  | cons a rest ih =>
    simp only [fsRemove] at h
    by_cases ha : a.1 = p
    · rw [if_pos ha] at h
      exact ⟨List.mem_cons_of_mem _ (ih h).1, (ih h).2⟩
    · rw [if_neg ha] at h
      rcases List.mem_cons.mp h with h | h
      · exact ⟨by simp [h], h ▸ ha⟩
      · exact ⟨List.mem_cons_of_mem _ (ih h).1, (ih h).2⟩

theorem fsRemove_fsSet (fs : FS) (p : List String) (n : Node) :
    fsRemove (fsSet fs p n) p = fsRemove fs p := by
  simp only [fsSet, fsRemove, if_pos rfl]
  exact fsRemove_of_not_mem _ _ (fun e he => (mem_fsRemove he).2)

/-! ## Helper lemmas: prefixes and positions -/

theorem fsLookup_nil (fs : FS) : fsLookup fs [] = some (.dir true) := by
  simp [fsLookup]

theorem mem_properPrefixesFrom_nil {q p : List String} :
    q ∈ properPrefixesFrom [] p ↔ q <+: p ∧ q ≠ p := by
  unfold properPrefixesFrom
  simp only [List.length_nil, Nat.sub_zero, List.drop_zero, List.nil_append,
    List.mem_map, List.mem_range]
  constructor
  · rintro ⟨k, hk, rfl⟩
    refine ⟨List.take_prefix k p, ?_⟩
    intro h
    have hlen := congrArg List.length h
    rw [List.length_take] at hlen
    omega
  · rintro ⟨hpre, hne⟩
    refine ⟨q.length, ?_, (List.prefix_iff_eq_take.mp hpre).symm⟩
    have hle := hpre.length_le
    rcases Nat.lt_or_ge q.length p.length with h | h
    · exact h
    · exact absurd (hpre.eq_of_length (Nat.le_antisymm hle h)) hne

theorem properPrefixesFrom_sub {S p q : List String} (hS : S <+: p)
    (h : q ∈ properPrefixesFrom S p) : q <+: p ∧ q ≠ p := by
  obtain ⟨rest, rfl⟩ := hS
  unfold properPrefixesFrom at h
  simp only [List.mem_map, List.mem_range] at h
  obtain ⟨k, hk, rfl⟩ := h
  rw [List.drop_left]
  rw [List.length_append, Nat.add_sub_cancel_left] at hk
  constructor
  · exact (List.prefix_append_right_inj S).mpr (List.take_prefix k rest)
  · intro hcontra
    have := List.append_cancel_left hcontra
    have hlen := congrArg List.length this
    rw [List.length_take, Nat.min_eq_left (Nat.le_of_lt hk)] at hlen
    omega

/-- The nonempty prefixes of a path `c` below a base `T` are exactly the
`take` fronts; used to traverse `mkdir` chains. -/
theorem take_eq_of_mem_properPrefixes {r c : List String}
    (h : r ∈ properPrefixesFrom [] c) : r = c.take r.length ∧ r.length < c.length := by
  have ⟨hpre, hne⟩ := mem_properPrefixesFrom_nil.mp h
  refine ⟨List.prefix_iff_eq_take.mp hpre, ?_⟩
  have hle := hpre.length_le
  rcases Nat.lt_or_ge r.length c.length with hlt | hge
  · exact hlt
  · exact absurd (hpre.eq_of_length (Nat.le_antisymm hle hge)) hne

theorem mem_properPrefixes_of_take {c : List String} {k : Nat}
    (hk : k < c.length) : c.take k ∈ properPrefixesFrom [] c := by
  apply mem_properPrefixesFrom_nil.mpr
  refine ⟨List.take_prefix k c, ?_⟩
  intro h
  have := congrArg List.length h
  rw [List.length_take] at this
  omega

theorem incomp_symm {a b : List String} (h : incomp a b) : incomp b a :=
  ⟨h.2, h.1⟩

theorem not_self_incomp {a : List String} (h : incomp a b) (hab : a = b) : False := by
  subst hab
  exact h.1 (List.prefix_refl a)

/-! ## Helper lemmas: `mkdirFold` -/

theorem isDirOrNoneAt_congr {a b : FS} {q : List String}
    (h : fsLookup a q = fsLookup b q) : isDirOrNoneAt a q = isDirOrNoneAt b q := by
  unfold isDirOrNoneAt
  rw [h]

theorem isDirAnyAt_congr {a b : FS} {q : List String}
    (h : fsLookup a q = fsLookup b q) : isDirAnyAt a q = isDirAnyAt b q := by
  unfold isDirAnyAt
  rw [h]

theorem isDirTrueAt_congr {a b : FS} {q : List String}
    (h : fsLookup a q = fsLookup b q) : isDirTrueAt a q = isDirTrueAt b q := by
  unfold isDirTrueAt
  rw [h]

/-- Full specification of `mkdirFold fs done todo`, provided every
position of the chain `done ++ todo.take k` holds a directory or
nothing: it succeeds; every chain position afterwards holds a readable
directory if it held nothing (and its old node otherwise); every other
position is untouched; and every entry of the result either was an
entry before or sits at a chain position. -/
theorem mkdirFold_spec (todo : List String) (fs : FS) (done : List String)
    (h : ∀ k, 0 < k → k ≤ todo.length →
      isDirOrNoneAt fs (done ++ todo.take k) = true) :
    (mkdirFold fs done todo).1 = none ∧
    (∀ k, 0 < k → k ≤ todo.length →
      (fsLookup fs (done ++ todo.take k) = none →
        fsLookup (mkdirFold fs done todo).2 (done ++ todo.take k)
          = some (.dir true)) ∧
      (∀ n, fsLookup fs (done ++ todo.take k) = some n →
        fsLookup (mkdirFold fs done todo).2 (done ++ todo.take k) = some n)) ∧
    (∀ q, (∀ k, 0 < k → k ≤ todo.length → q ≠ done ++ todo.take k) →
      fsLookup (mkdirFold fs done todo).2 q = fsLookup fs q) ∧
    (∀ e ∈ (mkdirFold fs done todo).2, e ∈ fs ∨
      ∃ k, 0 < k ∧ k ≤ todo.length ∧ e.1 = done ++ todo.take k) := by
  induction todo generalizing fs done with
  | nil =>
    refine ⟨rfl, ?_, ?_, ?_⟩
    · intro k hk hk'
      simp at hk'
      omega
    · intro q _; rfl
    · intro e he; exact Or.inl he
  | cons c rest ih =>
    have htake1 : (c :: rest).take 1 = [c] := rfl
    have h1 : isDirOrNoneAt fs (done ++ [c]) = true := by
      have := h 1 (by omega) (by simp)
      rwa [htake1] at this
    have hchain : ∀ k, (done ++ [c]) ++ rest.take k = done ++ (c :: rest).take (k + 1) := by
      intro k
      rw [List.take_succ_cons, ← List.append_cons]
    have hq1ne : ∀ k, 0 < k → k ≤ rest.length →
        done ++ [c] ≠ (done ++ [c]) ++ rest.take k := by
      intro k hk hk' heq
      have hl := congrArg List.length heq
      rw [List.length_append (done ++ [c]), List.length_take,
        Nat.min_eq_left hk'] at hl
      omega
    cases hfq : fsLookup fs (done ++ [c]) with
    | none =>
      have hmk : mkdirFold fs done (c :: rest)
          = mkdirFold (fsSet fs (done ++ [c]) (.dir true)) (done ++ [c]) rest := by
        simp only [mkdirFold]
        rw [hfq]
      have hhyp : ∀ k, 0 < k → k ≤ rest.length →
          isDirOrNoneAt (fsSet fs (done ++ [c]) (.dir true))
            ((done ++ [c]) ++ rest.take k) = true := by
        intro k hk hk'
        rw [isDirOrNoneAt_congr
          (fsLookup_set_ne fs (done ++ [c]) _ _ ((hq1ne k hk hk').symm))]
        rw [hchain k]
        exact h (k + 1) (by omega) (by simp; omega)
      obtain ⟨ihok, ihchain, ihframe, ihmem⟩ :=
        ih (fsSet fs (done ++ [c]) (.dir true)) (done ++ [c]) hhyp
      refine ⟨by rw [hmk]; exact ihok, ?_, ?_, ?_⟩
      · intro k hk hk'
        match k, hk with
        | 1, _ =>
          rw [htake1]
          constructor
          · intro _
            rw [hmk, ihframe (done ++ [c]) hq1ne]
            exact fsLookup_set_self fs _ _ (by simp)
          · intro n hn
            rw [hfq] at hn
            exact absurd hn (by simp)
        | (k' + 2), _ =>
          have hk'' : k' + 1 ≤ rest.length := by
            simp at hk'
            omega
          have hch := hchain (k' + 1)
          constructor
          · intro hnone
            rw [hmk, ← hch]
            apply (ihchain (k' + 1) (by omega) hk'').1
            rw [fsLookup_set_ne fs _ _ _ ((hq1ne (k' + 1) (by omega) hk'').symm), hch]
            exact hnone
          · intro n hn
            rw [hmk, ← hch]
            apply (ihchain (k' + 1) (by omega) hk'').2
            rw [fsLookup_set_ne fs _ _ _ ((hq1ne (k' + 1) (by omega) hk'').symm), hch]
            exact hn
      · intro q hq
        rw [hmk, ihframe q (fun k hk hk' heq => by
          rw [hchain k] at heq
          exact hq (k + 1) (by omega) (by simp; omega) heq)]
        exact fsLookup_set_ne fs _ _ _ (fun heq =>
          hq 1 (by omega) (by simp) (by rw [htake1]; exact heq))
      · intro e he
        rw [hmk] at he
        rcases ihmem e he with hin | ⟨k, hk, hk', hpath⟩
        · rcases List.mem_cons.mp hin with heq | hin'
          · right
            exact ⟨1, by omega, by simp, by rw [heq, htake1]⟩
          · exact Or.inl (mem_fsRemove hin').1
        · right
          exact ⟨k + 1, by omega, by simp; omega, by rw [hpath, hchain k]⟩
    | some n =>
      cases n with
      | dir b =>
        have hmk : mkdirFold fs done (c :: rest)
            = mkdirFold fs (done ++ [c]) rest := by
          simp only [mkdirFold]
          rw [hfq]
        have hhyp : ∀ k, 0 < k → k ≤ rest.length →
            isDirOrNoneAt fs ((done ++ [c]) ++ rest.take k) = true := by
          intro k hk hk'
          rw [hchain k]
          exact h (k + 1) (by omega) (by simp; omega)
        obtain ⟨ihok, ihchain, ihframe, ihmem⟩ := ih fs (done ++ [c]) hhyp
        refine ⟨by rw [hmk]; exact ihok, ?_, ?_, ?_⟩
        · intro k hk hk'
          match k, hk with
          | 1, _ =>
            rw [htake1]
            constructor
            · intro hnone
              rw [hfq] at hnone
              exact absurd hnone (by simp)
            · intro n' hn'
              rw [hmk, ihframe (done ++ [c]) hq1ne]
              exact hn'
          | (k' + 2), _ =>
            have hk'' : k' + 1 ≤ rest.length := by
              simp at hk'
              omega
            rw [← hchain (k' + 1), hmk]
            exact ihchain (k' + 1) (by omega) hk''
        · intro q hq
          rw [hmk]
          exact ihframe q (fun k hk hk' heq => by
            rw [hchain k] at heq
            exact hq (k + 1) (by omega) (by simp; omega) heq)
        · intro e he
          rw [hmk] at he
          rcases ihmem e he with hin | ⟨k, hk, hk', hpath⟩
          · exact Or.inl hin
          · right
            exact ⟨k + 1, by omega, by simp; omega, by rw [hpath, hchain k]⟩
      | file d =>
        exfalso
        unfold isDirOrNoneAt at h1
        rw [hfq] at h1
        simp at h1
      | symlink s =>
        exfalso
        unfold isDirOrNoneAt at h1
        rw [hfq] at h1
        simp at h1

/-! ## Helper lemmas: the target-area invariant -/

theorem underSt_none {w : FS} {T : List String} {files syms dirs}
    (h : underSt w T files syms dirs) {r : List String} (hr : r ≠ [])
    (hacc : ¬ posAccounted r files syms dirs) :
    fsLookup w (T ++ r) = none := by
  cases hl : fsLookup w (T ++ r) with
  | none => rfl
  | some n =>
    exfalso
    have hne : (T : List String) ++ r ≠ [] := by simp [hr]
    have hmem := mem_of_fsLookup hl hne
    have hTr : T ≠ T ++ r := by
      intro heq
      have : r = [] := by simpa using heq.symm
      exact hr this
    have hback := h.2.2.2.2.1 (T ++ r, n) hmem ⟨r, rfl⟩ hTr
    rw [show ((T ++ r, n).1).drop T.length = r by simp [List.drop_left]] at hback
    exact hacc hback

theorem posAccounted_mono {r : List String} {f1 f2 : List (List String × Data)}
    {s1 s2 : List (List String × String)} {d1 d2 : List (List String)}
    (hf : ∀ x, x ∈ f1 → x ∈ f2) (hs : ∀ x, x ∈ s1 → x ∈ s2)
    (hd : ∀ x, x ∈ d1 → x ∈ d2) :
    posAccounted r f1 s1 d1 → posAccounted r f2 s2 d2 := by
  intro h
  rcases h with h | h | h | ⟨p, hp, hpre⟩
  · left
    obtain ⟨x, hx, rfl⟩ := List.mem_map.mp h
    exact List.mem_map.mpr ⟨x, hf x hx, rfl⟩
  · right; left
    obtain ⟨x, hx, rfl⟩ := List.mem_map.mp h
    exact List.mem_map.mpr ⟨x, hs x hx, rfl⟩
  · right; right; left
    exact hd _ h
  · right; right; right
    refine ⟨p, ?_, hpre⟩
    rcases List.mem_append.mp hp with hp | hp
    · obtain ⟨x, hx, rfl⟩ := List.mem_map.mp hp
      exact List.mem_append.mpr (Or.inl (List.mem_map.mpr ⟨x, hf x hx, rfl⟩))
    · obtain ⟨x, hx, rfl⟩ := List.mem_map.mp hp
      exact List.mem_append.mpr (Or.inr (List.mem_map.mpr ⟨x, hs x hx, rfl⟩))

theorem underSt_congr {w : FS} {T : List String}
    {f1 f2 : List (List String × Data)} {s1 s2 : List (List String × String)}
    {d1 d2 : List (List String)}
    (hf : ∀ x, x ∈ f1 ↔ x ∈ f2) (hs : ∀ x, x ∈ s1 ↔ x ∈ s2)
    (hd : ∀ x, x ∈ d1 ↔ x ∈ d2) :
    underSt w T f1 s1 d1 → underSt w T f2 s2 d2 := by
  rintro ⟨hT, hF, hS, hD, hAcc, hAnc⟩
  refine ⟨hT, ?_, ?_, ?_, ?_, hAnc⟩
  · intro fd hfd; exact hF fd ((hf fd).mpr hfd)
  · intro st hst; exact hS st ((hs st).mpr hst)
  · intro r hr; exact hD r ((hd r).mpr hr)
  · intro e he h1 h2
    exact posAccounted_mono (fun x => (hf x).mp) (fun x => (hs x).mp)
      (fun x => (hd x).mp) (hAcc e he h1 h2)

/-- At a position that is a nonempty strict front of a fresh path `c`
(no placed file or symlink is prefix-comparable with `c`), the world
holds either nothing or a readable directory. -/
theorem underSt_chain_dir {w : FS} {T : List String} {files syms dirs}
    (h : underSt w T files syms dirs) {c : List String}
    (hfiles : ∀ fd ∈ files, incomp fd.1 c)
    (hsyms : ∀ st ∈ syms, incomp st.1 c)
    {k : Nat} (hk0 : 0 < k) (hkc : k < c.length) :
    fsLookup w (T ++ c.take k) = none ∨
    fsLookup w (T ++ c.take k) = some (.dir true) := by
  have hmem := mem_properPrefixes_of_take hkc
  have ⟨hpre, hne⟩ := mem_properPrefixesFrom_nil.mp hmem
  by_cases hacc : posAccounted (c.take k) files syms dirs
  · rcases hacc with hx | hx | hx | ⟨p, hp, hppre, hpne⟩
    · obtain ⟨fd, hfd, heq⟩ := List.mem_map.mp hx
      exact absurd (heq ▸ hpre) (hfiles fd hfd).1
    · obtain ⟨st, hst, heq⟩ := List.mem_map.mp hx
      exact absurd (heq ▸ hpre) (hsyms st hst).1
    · exact Or.inr (h.2.2.2.1 _ hx)
    · rcases List.mem_append.mp hp with hp | hp
      · obtain ⟨fd, hfd, rfl⟩ := List.mem_map.mp hp
        exact Or.inr ((h.2.1 fd hfd).2 _ (mem_properPrefixesFrom_nil.mpr ⟨hppre, hpne⟩))
      · obtain ⟨st, hst, rfl⟩ := List.mem_map.mp hp
        exact Or.inr ((h.2.2.1 st hst).2 _ (mem_properPrefixesFrom_nil.mpr ⟨hppre, hpne⟩))
  · left
    apply underSt_none h _ hacc
    intro htk
    rw [List.take_eq_nil_iff] at htk
    rcases htk with h1 | h1
    · omega
    · rw [h1] at hkc; simp at hkc

/-- A path incomparable with every placed file/symlink position and
distinct from every created directory holds nothing. -/
theorem underSt_fresh {w : FS} {T : List String} {files syms dirs}
    (h : underSt w T files syms dirs) {c : List String} (hc : c ≠ [])
    (hfiles : ∀ fd ∈ files, incomp fd.1 c)
    (hsyms : ∀ st ∈ syms, incomp st.1 c)
    (hdirs : ∀ r ∈ dirs, r ≠ c) :
    fsLookup w (T ++ c) = none := by
  apply underSt_none h hc
  intro hacc
  rcases hacc with hx | hx | hx | ⟨p, hp, hppre, hpne⟩
  · obtain ⟨fd, hfd, heq⟩ := List.mem_map.mp hx
    exact (hfiles fd hfd).1 (heq ▸ List.prefix_refl _)
  · obtain ⟨st, hst, heq⟩ := List.mem_map.mp hx
    exact (hsyms st hst).1 (heq ▸ List.prefix_refl _)
  · exact hdirs _ hx rfl
  · rcases List.mem_append.mp hp with hp | hp
    · obtain ⟨fd, hfd, rfl⟩ := List.mem_map.mp hp
      exact (hfiles fd hfd).2 hppre
    · obtain ⟨st, hst, rfl⟩ := List.mem_map.mp hp
      exact (hsyms st hst).2 hppre

/-! ## Helper lemmas: the extraction step -/

theorem extractMember_eq_of_none {fs fs1 : FS} {T : List String} {n : String}
    {d : Data} (hmk : mkdirFold fs T (splitPath n).dropLast = (none, fs1))
    (hocc : fsLookup fs1 (T ++ splitPath n) = none) :
    extractMember fs T n d = (none, fsSet fs1 (T ++ splitPath n) (.file d)) := by
  unfold extractMember
  simp only [hmk, hocc]

/-- One extraction step into a clean position: the member is written as
a regular file, its parent directories are created, and the invariant
advances by that file. -/
theorem extractMember_step {w : FS} {T : List String}
    {files : List (List String × Data)} {syms : List (List String × String)}
    {dirs : List (List String)} {n : String} {d : Data}
    (hinv : underSt w T files syms dirs)
    (hval : validComps (splitPath n))
    (hfiles : ∀ fd ∈ files, incomp fd.1 (splitPath n))
    (hsyms : ∀ st ∈ syms, incomp st.1 (splitPath n))
    (hdirs : ∀ r ∈ dirs, r ≠ splitPath n) :
    (extractMember w T n d).1 = none ∧
    underSt (extractMember w T n d).2 T ((splitPath n, d) :: files) syms dirs := by
  obtain ⟨hT, hF, hS, hD, hAcc, hAnc⟩ := id hinv
  set c := splitPath n with hc
  have hcne : c ≠ [] := hval.1
  have hclen : 0 < c.length := List.length_pos.mpr hcne
  have hdlen : c.dropLast.length = c.length - 1 := List.length_dropLast c
  have hdp : ∀ k, k ≤ c.dropLast.length → c.dropLast.take k = c.take k := by
    intro k hk
    rw [List.dropLast_eq_take, List.take_take]
    congr 1
    omega
  have hmkhyp : ∀ k, 0 < k → k ≤ c.dropLast.length →
      isDirOrNoneAt w (T ++ c.dropLast.take k) = true := by
    intro k hk hk'
    rw [hdp k hk']
    rcases underSt_chain_dir hinv hfiles hsyms hk (by omega) with hx | hx <;>
      (unfold isDirOrNoneAt; rw [hx])
  obtain ⟨hok, hchain, hframe, hmem⟩ := mkdirFold_spec c.dropLast w T hmkhyp
  set w1 := (mkdirFold w T c.dropLast).2 with hw1
  have hpair : mkdirFold w T c.dropLast = (none, w1) := by
    rw [← hok]
  have hpreserve : ∀ q n0, fsLookup w q = some n0 → fsLookup w1 q = some n0 := by
    intro q n0 hq0
    by_cases hch : ∃ k, 0 < k ∧ k ≤ c.dropLast.length ∧ q = T ++ c.dropLast.take k
    · obtain ⟨k, hk, hk', rfl⟩ := hch
      exact (hchain k hk hk').2 n0 hq0
    · push_neg at hch
      rw [hframe q hch]
      exact hq0
  have hchne : ∀ k, 0 < k → k ≤ c.dropLast.length → T ++ c ≠ T ++ c.dropLast.take k := by
    intro k hk hk' heq
    have := List.append_cancel_left heq
    have hlen := congrArg List.length this
    rw [List.length_take] at hlen
    omega
  have hocc : fsLookup w1 (T ++ c) = none := by
    rw [hframe (T ++ c) hchne]
    exact underSt_fresh hinv hcne hfiles hsyms hdirs
  have hrw := @extractMember_eq_of_none w w1 T n d (hc ▸ hpair) (hc ▸ hocc)
  rw [← hc] at hrw
  refine ⟨by rw [hrw], ?_⟩
  rw [hrw]
  set w2 := fsSet w1 (T ++ c) (.file d) with hw2
  have hTcne : (T : List String) ++ c ≠ [] := by simp [hcne]
  have hTneTc : T ≠ T ++ c := by
    intro heq
    exact hcne (by simpa using heq.symm)
  have hpres2 : ∀ q n0, q ≠ T ++ c → fsLookup w q = some n0 →
      fsLookup w2 q = some n0 := by
    intro q n0 hqne hq0
    rw [hw2, fsLookup_set_ne w1 _ _ _ hqne]
    exact hpreserve q n0 hq0
  have hchaindir : ∀ r, r <+: c → r ≠ c → r ≠ [] →
      fsLookup w2 (T ++ r) = some (.dir true) := by
    intro r hrpre hrne hr0
    have hrtake : r = c.take r.length := List.prefix_iff_eq_take.mp hrpre
    have hrlen : r.length < c.length := by
      rcases Nat.lt_or_ge r.length c.length with hlt | hge
      · exact hlt
      · exact absurd (hrpre.eq_of_length (Nat.le_antisymm hrpre.length_le hge)) hrne
    have hr0' : 0 < r.length := List.length_pos.mpr hr0
    have hkd : r.length ≤ c.dropLast.length := by omega
    have hpath : T ++ c.dropLast.take r.length = T ++ r := by
      rw [hdp _ hkd, ← hrtake]
    have hrneTc : T ++ r ≠ T ++ c := by
      intro heq
      exact hrne (List.append_cancel_left heq)
    rw [hw2, fsLookup_set_ne w1 _ _ _ hrneTc]
    rcases underSt_chain_dir hinv hfiles hsyms hr0' hrlen with hx | hx
    · have := (hchain r.length hr0' hkd).1 (by rw [hpath]; rw [← hrtake] at hx; exact hx)
      rw [hpath] at this
      exact this
    · have := (hchain r.length hr0' hkd).2 _ (by rw [hpath]; rw [← hrtake] at hx; exact hx)
      rw [hpath] at this
      exact this
  have hfd_ne : ∀ fd, fd ∈ files → fd.1 ≠ c := by
    intro fd hfd heq
    exact (hfiles fd hfd).1 (heq ▸ List.prefix_refl _)
  refine ⟨?_, ?_, ?_, ?_, ?_, ?_⟩
  · -- target root stays a readable directory
    exact hpres2 T _ hTneTc hT
  · -- files: the new one and the old ones
    intro fd hfd
    rcases List.mem_cons.mp hfd with rfl | hfd'
    · constructor
      · rw [hw2]
        exact fsLookup_set_self w1 _ _ hTcne
      · intro r hr
        obtain ⟨hrpre, hrne⟩ := mem_properPrefixesFrom_nil.mp hr
        by_cases hr0 : r = []
        · rw [hr0, List.append_nil]
          exact hpres2 T _ hTneTc hT
        · exact hchaindir r hrpre hrne hr0
    · constructor
      · exact hpres2 _ _ (by
          intro heq
          exact hfd_ne fd hfd' (List.append_cancel_left heq)) (hF fd hfd').1
      · intro r hr
        obtain ⟨hrpre, hrne⟩ := mem_properPrefixesFrom_nil.mp hr
        by_cases hr0 : r = []
        · rw [hr0, List.append_nil]
          exact hpres2 T _ hTneTc hT
        · apply hpres2 _ _ (by
            intro heq
            have hrc := List.append_cancel_left heq
            exact (hfiles fd hfd').2 (hrc ▸ hrpre))
          exact (hF fd hfd').2 r hr
  · -- symlinks unchanged
    intro st hst
    constructor
    · exact hpres2 _ _ (by
        intro heq
        exact (hsyms st hst).1 ((List.append_cancel_left heq) ▸ List.prefix_refl _))
        (hS st hst).1
    · intro r hr
      obtain ⟨hrpre, hrne⟩ := mem_properPrefixesFrom_nil.mp hr
      by_cases hr0 : r = []
      · rw [hr0, List.append_nil]
        exact hpres2 T _ hTneTc hT
      · apply hpres2 _ _ (by
          intro heq
          have hrc := List.append_cancel_left heq
          exact (hsyms st hst).2 (hrc ▸ hrpre))
        exact (hS st hst).2 r hr
  · -- created directories unchanged
    intro r hr
    exact hpres2 _ _ (by
      intro heq
      exact hdirs r hr (List.append_cancel_left heq)) (hD r hr)
  · -- accounting of every entry below the target
    intro e he hTe hTne
    rw [hw2] at he
    rcases List.mem_cons.mp he with rfl | he'
    · left
      simp [List.drop_left]
    · have he2 := (mem_fsRemove he').1
      rcases hmem e he2 with hw | ⟨k, hk, hk', hpath⟩
      · exact posAccounted_mono (fun x hx => List.mem_cons_of_mem _ hx)
          (fun x hx => hx) (fun x hx => hx) (hAcc e hw hTe hTne)
      · right; right; right
        refine ⟨c, List.mem_append.mpr (Or.inl (by simp)), ?_, ?_⟩
        · rw [hpath, hdp k hk', List.drop_left]
          exact List.take_prefix k c
        · rw [hpath, hdp k hk', List.drop_left]
          intro heq
          have := congrArg List.length heq
          rw [List.length_take] at this
          omega
  · -- ancestors of the target remain directories
    intro q hq
    obtain ⟨hqpre, hqne⟩ := mem_properPrefixesFrom_nil.mp hq
    have hqlen : q.length < T.length := by
      rcases Nat.lt_or_ge q.length T.length with hlt | hge
      · exact hlt
      · exact absurd (hqpre.eq_of_length (Nat.le_antisymm hqpre.length_le hge)) hqne
    have hqTc : q ≠ T ++ c := by
      intro heq
      have := congrArg List.length heq
      rw [List.length_append] at this
      omega
    have hqch : ∀ k, 0 < k → k ≤ c.dropLast.length → q ≠ T ++ c.dropLast.take k := by
      intro k hk hk' heq
      have := congrArg List.length heq
      rw [List.length_append, List.length_take] at this
      omega
    rw [hw2, isDirAnyAt_congr (fsLookup_set_ne w1 _ _ _ hqTc),
      isDirAnyAt_congr (hframe q hqch)]
    exact hAnc q hq

theorem pairwise_filterMap_of {α β : Type _} {R : α → α → Prop} {R' : β → β → Prop}
    {f : α → Option β} {l : List α} (h : l.Pairwise R)
    (hf : ∀ a b a' b', R a b → f a = some a' → f b = some b' → R' a' b') :
    (l.filterMap f).Pairwise R' := by
  induction l with
  | nil => simp
  | cons a l ih =>
    rcases List.pairwise_cons.mp h with ⟨ha, hl⟩
    rw [List.filterMap_cons]
    cases hfa : f a with
    | none => exact ih hl
    | some a' =>
      apply List.pairwise_cons.mpr
      refine ⟨?_, ih hl⟩
      intro b' hb'
      obtain ⟨b, hb, hfb⟩ := List.mem_filterMap.mp hb'
      exact hf a b a' b' (ha b hb) hfa hfb

/-- The whole extraction loop over a member list whose non-manifest
names are pairwise prefix-incomparable and clean for the current
invariant: it succeeds and places exactly those members as files. -/
theorem extractAll_fold (T : List String) (es : List (String × Data)) :
    ∀ (w : FS) (files : List (List String × Data))
      (syms : List (List String × String)) (dirs : List (List String)),
    underSt w T files syms dirs →
    (∀ e ∈ es, e.1 ≠ "links.json" → validComps (splitPath e.1)) →
    (∀ e ∈ es, e.1 ≠ "links.json" →
      (∀ fd ∈ files, incomp fd.1 (splitPath e.1)) ∧
      (∀ st ∈ syms, incomp st.1 (splitPath e.1)) ∧
      (∀ r ∈ dirs, r ≠ splitPath e.1)) →
    (extractedOf es).Pairwise (fun a b => incomp a.1 b.1) →
    (extractAll w T es).1 = none ∧
    underSt (extractAll w T es).2 T (extractedOf es ++ files) syms dirs := by
  induction es with
  | nil =>
    intro w files syms dirs hinv _ _ _
    exact ⟨rfl, hinv⟩
  | cons e rest ih =>
    intro w files syms dirs hinv hval hcond hpw
    obtain ⟨nm, dt⟩ := e
    by_cases hlj : nm = "links.json"
    · have hskip : extractAll w T ((nm, dt) :: rest) = extractAll w T rest := by
        conv_lhs => unfold extractAll
        rw [if_pos hlj]
      have hext : extractedOf ((nm, dt) :: rest) = extractedOf rest := by
        unfold extractedOf
        rw [List.filter_cons, if_neg (by simp [hlj])]
      rw [hskip, hext]
      exact ih w files syms dirs hinv
        (fun e' he' => hval e' (List.mem_cons_of_mem _ he'))
        (fun e' he' => hcond e' (List.mem_cons_of_mem _ he'))
        (by rw [← hext]; exact hpw)
    · have hext : extractedOf ((nm, dt) :: rest)
          = (splitPath nm, dt) :: extractedOf rest := by
        unfold extractedOf
        rw [List.filter_cons, if_pos (by simp [hlj])]
        rfl
      have hcnd := hcond (nm, dt) (by simp) hlj
      have hstep := @extractMember_step w T files syms dirs nm dt hinv
        (hval (nm, dt) (by simp) hlj) hcnd.1 hcnd.2.1 hcnd.2.2
      have hpair : extractMember w T nm dt = (none, (extractMember w T nm dt).2) := by
        rw [← hstep.1]
      have hrun : extractAll w T ((nm, dt) :: rest)
          = extractAll (extractMember w T nm dt).2 T rest := by
        conv_lhs => unfold extractAll
        rw [if_neg hlj, hpair]
      rw [hrun]
      have hpw' := hext ▸ hpw
      rcases List.pairwise_cons.mp hpw' with ⟨hhead, htail⟩
      have hres := ih (extractMember w T nm dt).2 ((splitPath nm, dt) :: files)
        syms dirs hstep.2
        (fun e' he' => hval e' (List.mem_cons_of_mem _ he'))
        (fun e' he' hne => by
          refine ⟨?_, (hcond e' (List.mem_cons_of_mem _ he') hne).2.1,
            (hcond e' (List.mem_cons_of_mem _ he') hne).2.2⟩
          intro fd hfd
          rcases List.mem_cons.mp hfd with rfl | hfd'
          · exact hhead (splitPath e'.1, e'.2) (by
              unfold extractedOf
              exact List.mem_map.mpr ⟨e', List.mem_filter.mpr
                ⟨he', by simp [hne]⟩, rfl⟩)
          · exact (hcond e' (List.mem_cons_of_mem _ he') hne).1 fd hfd')
        htail
      refine ⟨hres.1, ?_⟩
      apply underSt_congr ?_ (fun x => Iff.rfl) (fun x => Iff.rfl) hres.2
      intro x
      rw [hext]
      simp only [List.mem_append, List.mem_cons]
      tauto

/-! ## Helper lemmas: the restore step -/

theorem isDirAnyAt_spec {fs : FS} {q : List String} :
    isDirAnyAt fs q = true ↔ ∃ b, fsLookup fs q = some (.dir b) := by
  unfold isDirAnyAt
  cases h : fsLookup fs q with
  | none => simp
  | some n => cases n <;> simp

theorem isDirOrNoneAt_of_any {fs : FS} {q : List String}
    (h : isDirAnyAt fs q = true) : isDirOrNoneAt fs q = true := by
  obtain ⟨b, hb⟩ := isDirAnyAt_spec.mp h
  unfold isDirOrNoneAt
  rw [hb]

theorem restoreOne_eq_of_none {fs fs1 : FS} {T : List String} {lp lt : String}
    {ok : Bool} (habs : isAbs lp = false)
    (hmk : mkdirFold fs [] (T ++ splitPath lp).dropLast = (none, fs1))
    (hocc : fsLookup fs1 (T ++ splitPath lp) = none) :
    restoreOne fs T lp lt ok
      = (none, if ok then fsSet fs1 (T ++ splitPath lp) (.symlink lt) else fs1) := by
  unfold restoreOne
  simp only [habs, Bool.false_eq_true, if_false, hmk, hocc]

/-- One restore step at a clean position: the parent chain is created,
nothing occupies the position, and the symlink is created exactly when
the `os.symlink` oracle allows it; the loop body never errors here. -/
theorem restoreOne_step {w : FS} {T : List String}
    {files : List (List String × Data)} {syms : List (List String × String)}
    {dirs : List (List String)} {lp lt : String} {ok : Bool}
    (hinv : underSt w T files syms dirs)
    (habs : isAbs lp = false)
    (hval : validComps (splitPath lp))
    (hfiles : ∀ fd ∈ files, incomp fd.1 (splitPath lp))
    (hsyms : ∀ st ∈ syms, incomp st.1 (splitPath lp))
    (hdirs : ∀ r ∈ dirs, r ≠ splitPath lp) :
    (restoreOne w T lp lt ok).1 = none ∧
    underSt (restoreOne w T lp lt ok).2 T files
      ((if ok then [(splitPath lp, lt)] else []) ++ syms)
      (properPrefixesFrom [] (splitPath lp) ++ dirs) := by
  obtain ⟨hT, hF, hS, hD, hAcc, hAnc⟩ := id hinv
  set c := splitPath lp with hc
  have hcne : c ≠ [] := hval.1
  have hclen : 0 < c.length := List.length_pos.mpr hcne
  have hdla : (T ++ c).dropLast = T ++ c.dropLast :=
    List.dropLast_append_of_ne_nil T hcne
  have hdlen : c.dropLast.length = c.length - 1 := List.length_dropLast c
  have htlen : ((T ++ c).dropLast).length = T.length + (c.length - 1) := by
    rw [hdla, List.length_append, hdlen]
  have hdp : ∀ k, k ≤ c.dropLast.length → c.dropLast.take k = c.take k := by
    intro k hk
    rw [List.dropLast_eq_take, List.take_take]
    congr 1
    omega
  have hmkhyp : ∀ k, 0 < k → k ≤ ((T ++ c).dropLast).length →
      isDirOrNoneAt w (([] : List String) ++ ((T ++ c).dropLast).take k) = true := by
    intro k hk hk'
    rw [htlen] at hk'
    rw [hdla, List.nil_append, List.take_append_eq_append_take]
    rcases Nat.lt_or_ge k T.length with hlt | hge
    · have hz : c.dropLast.take (k - T.length) = [] := by
        rw [Nat.sub_eq_zero_of_le (Nat.le_of_lt hlt)]
        rfl
      rw [hz, List.append_nil]
      exact isDirOrNoneAt_of_any (hAnc (T.take k) (mem_properPrefixes_of_take hlt))
    · rw [List.take_of_length_le hge]
      rcases Nat.eq_or_lt_of_le hge with heq | hgt
      · rw [← heq, Nat.sub_self]
        unfold isDirOrNoneAt
        simp only [List.take_zero, List.append_nil]
        rw [hT]
      · have hj0 : 0 < k - T.length := by omega
        have hjd : k - T.length ≤ c.dropLast.length := by omega
        rw [hdp _ hjd]
        have hjc : k - T.length < c.length := by omega
        rcases underSt_chain_dir hinv hfiles hsyms hj0 hjc with hx | hx <;>
          (unfold isDirOrNoneAt; rw [hx])
  obtain ⟨hok, hchain, hframe, hmem⟩ :=
    mkdirFold_spec ((T ++ c).dropLast) w [] hmkhyp
  set w1 := (mkdirFold w [] ((T ++ c).dropLast)).2 with hw1
  have hpair : mkdirFold w [] ((T ++ c).dropLast) = (none, w1) := by
    rw [← hok]
  have hpathj : ∀ j, 0 < j → j ≤ c.dropLast.length →
      ([] : List String) ++ ((T ++ c).dropLast).take (T.length + j) = T ++ c.take j := by
    intro j hj hjd
    rw [hdla, List.nil_append, List.take_append_eq_append_take,
      List.take_of_length_le (by omega), Nat.add_sub_cancel_left, hdp _ hjd]
  have hchain' : ∀ j, 0 < j → j ≤ c.dropLast.length →
      (fsLookup w (T ++ c.take j) = none →
        fsLookup w1 (T ++ c.take j) = some (.dir true)) ∧
      (∀ n0, fsLookup w (T ++ c.take j) = some n0 →
        fsLookup w1 (T ++ c.take j) = some n0) := by
    intro j hj hjd
    have hk := hchain (T.length + j) (by omega) (by rw [htlen]; omega)
    rw [hpathj j hj hjd] at hk
    exact hk
  have hpreserve : ∀ q n0, fsLookup w q = some n0 → fsLookup w1 q = some n0 := by
    intro q n0 hq0
    by_cases hch : ∃ k, 0 < k ∧ k ≤ ((T ++ c).dropLast).length ∧
        q = ([] : List String) ++ ((T ++ c).dropLast).take k
    · obtain ⟨k, hk, hk', rfl⟩ := hch
      exact (hchain k hk hk').2 n0 hq0
    · push_neg at hch
      rw [hframe q hch]
      exact hq0
  have hTcne : (T : List String) ++ c ≠ [] := by simp [hcne]
  have hTneTc : T ≠ T ++ c := by
    intro heq
    exact hcne (by simpa using heq.symm)
  have hchne : ∀ k, 0 < k → k ≤ ((T ++ c).dropLast).length →
      T ++ c ≠ ([] : List String) ++ ((T ++ c).dropLast).take k := by
    intro k hk hk' heq
    have hlen := congrArg List.length heq
    rw [htlen] at hk'
    rw [List.length_append, List.nil_append, List.length_take, htlen] at hlen
    omega
  have hocc : fsLookup w1 (T ++ c) = none := by
    rw [hframe (T ++ c) hchne]
    exact underSt_fresh hinv hcne hfiles hsyms hdirs
  have hrw := @restoreOne_eq_of_none w w1 T lp lt ok habs (hc ▸ hpair) (hc ▸ hocc)
  rw [← hc] at hrw
  refine ⟨by rw [hrw], ?_⟩
  rw [hrw]
  set w2 := if ok then fsSet w1 (T ++ c) (.symlink lt) else w1 with hw2
  have hset2 : ∀ q, q ≠ T ++ c → fsLookup w2 q = fsLookup w1 q := by
    intro q hq
    rw [hw2]
    cases ok
    · rfl
    · simp only [if_pos rfl]
      exact fsLookup_set_ne w1 _ _ _ hq
  have hpres2 : ∀ q n0, q ≠ T ++ c → fsLookup w q = some n0 →
      fsLookup w2 q = some n0 := by
    intro q n0 hqne hq0
    rw [hset2 q hqne]
    exact hpreserve q n0 hq0
  have hT2 : fsLookup w2 T = some (.dir true) := hpres2 T _ hTneTc hT
  have hchaindir : ∀ r, r <+: c → r ≠ c → r ≠ [] →
      fsLookup w2 (T ++ r) = some (.dir true) := by
    intro r hrpre hrne hr0
    have hrtake : r = c.take r.length := List.prefix_iff_eq_take.mp hrpre
    have hrlen : r.length < c.length := by
      rcases Nat.lt_or_ge r.length c.length with hlt | hge
      · exact hlt
      · exact absurd (hrpre.eq_of_length (Nat.le_antisymm hrpre.length_le hge)) hrne
    have hr0' : 0 < r.length := List.length_pos.mpr hr0
    have hkd : r.length ≤ c.dropLast.length := by omega
    have hrneTc : T ++ r ≠ T ++ c := by
      intro heq
      exact hrne (List.append_cancel_left heq)
    rw [hset2 _ hrneTc]
    rcases underSt_chain_dir hinv hfiles hsyms hr0' hrlen with hx | hx
    · have := (hchain' r.length hr0' hkd).1 (by rw [← hrtake] at hx ⊢; exact hx)
      rw [← hrtake] at this
      exact this
    · have := (hchain' r.length hr0' hkd).2 _ (by rw [← hrtake] at hx ⊢; exact hx)
      rw [← hrtake] at this
      exact this
  have hfd_ne : ∀ fd, fd ∈ files → fd.1 ≠ c := by
    intro fd hfd heq
    exact (hfiles fd hfd).1 (heq ▸ List.prefix_refl _)
  have hst_ne : ∀ st, st ∈ syms → st.1 ≠ c := by
    intro st hst heq
    exact (hsyms st hst).1 (heq ▸ List.prefix_refl _)
  refine ⟨hT2, ?_, ?_, ?_, ?_, ?_⟩
  · -- files unchanged
    intro fd hfd
    constructor
    · exact hpres2 _ _ (by
        intro heq
        exact hfd_ne fd hfd (List.append_cancel_left heq)) (hF fd hfd).1
    · intro r hr
      obtain ⟨hrpre, hrne⟩ := mem_properPrefixesFrom_nil.mp hr
      by_cases hr0 : r = []
      · rw [hr0, List.append_nil]
        exact hT2
      · apply hpres2 _ _ (by
          intro heq
          have hrc := List.append_cancel_left heq
          exact (hfiles fd hfd).2 (hrc ▸ hrpre))
        exact (hF fd hfd).2 r hr
  · -- symlinks: the new one (when allowed) and the old ones
    intro st hst
    rcases List.mem_append.mp hst with hnew | hold
    · cases hok2 : ok with
      | false =>
        rw [hok2] at hnew
        simp at hnew
      | true =>
        rw [hok2] at hnew
        simp at hnew
        rw [hnew]
        constructor
        · rw [hw2, hok2]
          simp only [if_pos rfl]
          exact fsLookup_set_self w1 _ _ hTcne
        · intro r hr
          obtain ⟨hrpre, hrne⟩ := mem_properPrefixesFrom_nil.mp hr
          by_cases hr0 : r = []
          · rw [hr0, List.append_nil]
            exact hT2
          · exact hchaindir r hrpre hrne hr0
    · constructor
      · exact hpres2 _ _ (by
          intro heq
          exact hst_ne st hold (List.append_cancel_left heq)) (hS st hold).1
      · intro r hr
        obtain ⟨hrpre, hrne⟩ := mem_properPrefixesFrom_nil.mp hr
        by_cases hr0 : r = []
        · rw [hr0, List.append_nil]
          exact hT2
        · apply hpres2 _ _ (by
            intro heq
            have hrc := List.append_cancel_left heq
            exact (hsyms st hold).2 (hrc ▸ hrpre))
          exact (hS st hold).2 r hr
  · -- directories: the freshly created chain and the old ones
    intro r hr
    rcases List.mem_append.mp hr with hnew | hold
    · obtain ⟨hrpre, hrne⟩ := mem_properPrefixesFrom_nil.mp hnew
      by_cases hr0 : r = []
      · rw [hr0, List.append_nil]
        exact hT2
      · exact hchaindir r hrpre hrne hr0
    · exact hpres2 _ _ (by
        intro heq
        exact hdirs r hold (List.append_cancel_left heq)) (hD r hold)
  · -- accounting of entries below the target
    intro e he hTe hTne
    have hmem2 : e ∈ w1 ∨ e = (T ++ c, Node.symlink lt) := by
      rw [hw2] at he
      cases hok2 : ok with
      | false =>
        rw [hok2] at he
        exact Or.inl he
      | true =>
        rw [hok2] at he
        simp only [if_pos rfl] at he
        rcases List.mem_cons.mp he with heq | he'
        · exact Or.inr heq
        · exact Or.inl (mem_fsRemove he').1
    rcases hmem2 with he1 | rfl
    · rcases hmem e he1 with hw | ⟨k, hk, hk', hpath⟩
      · exact posAccounted_mono (fun x hx => hx)
          (fun x hx => List.mem_append.mpr (Or.inr hx))
          (fun x hx => List.mem_append.mpr (Or.inr hx)) (hAcc e hw hTe hTne)
      · right; right; left
        apply List.mem_append.mpr
        left
        have hlen1 : e.1.length = k := by
          rw [hpath, List.nil_append, List.length_take, htlen]
          rw [htlen] at hk'
          omega
        have hTlt : T.length < e.1.length := by
          obtain ⟨t, ht⟩ := hTe
          have htne : t ≠ [] := by
            intro h0
            rw [h0, List.append_nil] at ht
            exact hTne ht
          rw [← ht, List.length_append]
          have := List.length_pos.mpr htne
          omega
        have hkT : T.length < k := by omega
        have hdrop : e.1.drop T.length = c.take (k - T.length) := by
          rw [hpath, List.nil_append, hdla, List.take_append_eq_append_take,
            List.take_of_length_le (by omega), hdp _ (by rw [htlen] at hk'; omega)]
          rw [List.drop_left]
        rw [hdrop]
        apply mem_properPrefixes_of_take
        rw [htlen] at hk'
        omega
    · -- the new symlink entry itself (only present when ok = true)
      have hdrop : ((T ++ c, Node.symlink lt).1).drop T.length = c := by
        simp [List.drop_left]
      rw [hdrop]
      by_cases hok2 : ok = true
      · right; left
        apply List.mem_map.mpr
        refine ⟨(c, lt), ?_, rfl⟩
        apply List.mem_append.mpr
        left
        rw [hok2]
        simp
      · -- when ok = false the entry cannot be in w2
        exfalso
        rw [hw2] at he
        rw [Bool.not_eq_true] at hok2
        rw [hok2] at he
        simp only [if_neg (by simp : ¬(false = true))] at he
        have := hmem _ he
        rcases this with hw | ⟨k, hk, hk', hpath⟩
        · have hl := hAcc _ hw hTe hTne
          have hdrop2 : ((T ++ c, Node.symlink lt).1).drop T.length = c := by
            simp [List.drop_left]
          rw [hdrop2] at hl
          rcases hl with hx | hx | hx | ⟨p, hp, hppre, hpne⟩
          · obtain ⟨fd, hfd, heq⟩ := List.mem_map.mp hx
            exact hfd_ne fd hfd heq
          · obtain ⟨st, hst, heq⟩ := List.mem_map.mp hx
            exact hst_ne st hst heq
          · exact hdirs _ hx rfl
          · rcases List.mem_append.mp hp with hp | hp
            · obtain ⟨fd, hfd, rfl⟩ := List.mem_map.mp hp
              exact (hfiles fd hfd).2 hppre
            · obtain ⟨st, hst, rfl⟩ := List.mem_map.mp hp
              exact (hsyms st hst).2 hppre
        · have hlen := congrArg List.length hpath
          rw [List.nil_append, List.length_take, htlen] at hlen
          simp only [List.length_append] at hlen
          rw [htlen] at hk'
          omega
  · -- ancestors of the target
    intro q hq
    obtain ⟨hqpre, hqne⟩ := mem_properPrefixesFrom_nil.mp hq
    have hqlen : q.length < T.length := by
      rcases Nat.lt_or_ge q.length T.length with hlt | hge
      · exact hlt
      · exact absurd (hqpre.eq_of_length (Nat.le_antisymm hqpre.length_le hge)) hqne
    obtain ⟨b, hb⟩ := isDirAnyAt_spec.mp (hAnc q hq)
    apply isDirAnyAt_spec.mpr
    refine ⟨b, ?_⟩
    apply hpres2 q _ (by
      intro heq
      have := congrArg List.length heq
      rw [List.length_append] at this
      omega)
    exact hb

/-- The whole restore loop over a manifest whose paths are relative,
legal, pairwise prefix-incomparable and clean for the current invariant:
it never aborts, regardless of which `os.symlink` calls fail, and places
exactly the allowed symlinks. -/
theorem restoreAll_fold (T : List String) (okf : String → Bool)
    (links : List (String × String)) :
    ∀ (w : FS) (files : List (List String × Data))
      (syms : List (List String × String)) (dirs : List (List String)),
    underSt w T files syms dirs →
    (∀ l ∈ links, isAbs l.1 = false ∧ validComps (splitPath l.1)) →
    (∀ l ∈ links,
      (∀ fd ∈ files, incomp fd.1 (splitPath l.1)) ∧
      (∀ st ∈ syms, incomp st.1 (splitPath l.1)) ∧
      (∀ r ∈ dirs, r ≠ splitPath l.1)) →
    (links.map (fun l => splitPath l.1)).Pairwise incomp →
    (restoreAll w T okf links).1 = none ∧
    underSt (restoreAll w T okf links).2 T files
      (restoredOf links okf ++ syms) (linkDirsOf links ++ dirs) := by
  induction links with
  | nil =>
    intro w files syms dirs hinv _ _ _
    exact ⟨rfl, hinv⟩
  | cons l rest ih =>
    intro w files syms dirs hinv hvals hconds hpw
    obtain ⟨lp, lt⟩ := l
    have hv := hvals (lp, lt) (by simp)
    have hcnd := hconds (lp, lt) (by simp)
    have hstep := @restoreOne_step w T files syms dirs lp lt (okf lp) hinv
      hv.1 hv.2 hcnd.1 hcnd.2.1 hcnd.2.2
    have hpair : restoreOne w T lp lt (okf lp)
        = (none, (restoreOne w T lp lt (okf lp)).2) := by
      rw [← hstep.1]
    have hrun : restoreAll w T okf ((lp, lt) :: rest)
        = restoreAll (restoreOne w T lp lt (okf lp)).2 T okf rest := by
      conv_lhs => unfold restoreAll
      rw [hpair]
    rw [hrun]
    rcases List.pairwise_cons.mp hpw with ⟨hhead, htail⟩
    have hres := ih (restoreOne w T lp lt (okf lp)).2 files
      ((if okf lp then [(splitPath lp, lt)] else []) ++ syms)
      (properPrefixesFrom [] (splitPath lp) ++ dirs) hstep.2
      (fun l' hl' => hvals l' (List.mem_cons_of_mem _ hl'))
      (fun l' hl' => by
        have hinc : incomp (splitPath lp) (splitPath l'.1) :=
          hhead (splitPath l'.1) (List.mem_map.mpr ⟨l', hl', rfl⟩)
        refine ⟨(hconds l' (List.mem_cons_of_mem _ hl')).1, ?_, ?_⟩
        · intro st hst
          rcases List.mem_append.mp hst with hnew | hold
          · have : st = (splitPath lp, lt) := by
              cases hok2 : okf lp
              · rw [hok2] at hnew
                simp at hnew
              · rw [hok2] at hnew
                simp at hnew
                exact hnew
            rw [this]
            exact hinc
          · exact (hconds l' (List.mem_cons_of_mem _ hl')).2.1 st hold
        · intro r hr
          rcases List.mem_append.mp hr with hnew | hold
          · obtain ⟨hrpre, hrne⟩ := mem_properPrefixesFrom_nil.mp hnew
            intro heq
            exact hinc.2 (heq ▸ hrpre)
          · exact (hconds l' (List.mem_cons_of_mem _ hl')).2.2 r hold)
      htail
    refine ⟨hres.1, ?_⟩
    apply underSt_congr (fun x => Iff.rfl) ?_ ?_ hres.2
    · intro x
      have : restoredOf ((lp, lt) :: rest) okf
          = (if okf lp then [(splitPath lp, lt)] else []) ++ restoredOf rest okf := by
        unfold restoredOf
        rw [List.filterMap_cons]
        cases hok2 : okf lp <;> simp [hok2]
      rw [this]
      simp only [List.mem_append]
      tauto
    · intro x
      have : linkDirsOf ((lp, lt) :: rest)
          = properPrefixesFrom [] (splitPath lp) ++ linkDirsOf rest := by
        unfold linkDirsOf
        rw [List.map_cons, List.flatten_cons]
      rw [this]
      simp only [List.mem_append]
      tauto

/-- `removeLinksJsonAt` does nothing when the target holds no
`links.json` at top level. -/
theorem removeLinksJsonAt_of_none {fs : FS} {T : List String}
    (h : fsLookup fs (T ++ ["links.json"]) = none) :
    removeLinksJsonAt fs T = (none, fs) := by
  unfold removeLinksJsonAt
  simp only [h]

/-- `removeLinksJsonAt` unlinks a regular-file occupant. -/
theorem removeLinksJsonAt_of_file {fs : FS} {T : List String} {d : Data}
    (h : fsLookup fs (T ++ ["links.json"]) = some (.file d)) :
    removeLinksJsonAt fs T = (none, fsRemove fs (T ++ ["links.json"])) := by
  unfold removeLinksJsonAt
  simp only [h]

/-! ## Helper lemmas: the scan and the produced archive -/

theorem isDirTrueAt_spec {fs : FS} {q : List String} :
    isDirTrueAt fs q = true ↔ fsLookup fs q = some (.dir true) := by
  unfold isDirTrueAt
  cases h : fsLookup fs q with
  | none => simp
  | some n =>
    cases n with
    | dir b => cases b <;> simp
    | file d => simp
    | symlink t => simp

theorem allCongr {α : Type _} {l : List α} {f g : α → Bool}
    (h : ∀ x ∈ l, f x = g x) : l.all f = l.all g := by
  induction l with
  | nil => rfl
  | cons a l ih =>
    simp only [List.all_cons]
    rw [h a (by simp), ih (fun x hx => h x (by simp [hx]))]

theorem validComps_drop {p S : List String} (hv : validComps p) (hS : S <+: p)
    (hne : p ≠ S) : validComps (p.drop S.length) := by
  obtain ⟨t, rfl⟩ := hS
  rw [List.drop_left]
  constructor
  · intro h0
    exact hne (by rw [h0, List.append_nil])
  · intro c hc
    exact hv.2 c (by simp [hc])

/-- In a well-formed world, two distinct non-directory entry paths are
prefix-incomparable, and so are their source-relative parts. -/
theorem positions_rel_incomp {fs : FS} (hwf : wfAll fs) {S : List String}
    {pa pb : List String} {na nb : Node}
    (ha : (pa, na) ∈ fs) (hb : (pb, nb) ∈ fs)
    (hSa : S <+: pa) (hSb : S <+: pb) (hne : pa ≠ pb)
    (hna : ∀ b, na ≠ .dir b) (hnb : ∀ b, nb ≠ .dir b) :
    incomp (pa.drop S.length) (pb.drop S.length) := by
  have key : ∀ (px py : List String) (nx ny : Node), (px, nx) ∈ fs →
      (py, ny) ∈ fs → px ≠ py → (∀ b, nx ≠ .dir b) → ¬ (px <+: py) := by
    intro px py nx ny hx hy hnexy hnx hpre
    have hdir := (hwf.2 (py, ny) hy).2 px
      (mem_properPrefixesFrom_nil.mpr ⟨hpre, hnexy⟩)
    have hlx := fsLookup_of_mem hx hwf.1 ((hwf.2 (px, nx) hx).1).1
    rw [isDirTrueAt_spec] at hdir
    rw [hdir] at hlx
    injection hlx with hlx
    exact hnx true hlx.symm
  obtain ⟨ra, hra⟩ := hSa
  obtain ⟨rb, hrb⟩ := hSb
  rw [← hra, ← hrb, List.drop_left, List.drop_left]
  constructor
  · intro hpre
    exact key pa pb na nb ha hb hne hna
      (by rw [← hra, ← hrb]; exact (List.prefix_append_right_inj S).mpr hpre)
  · intro hpre
    exact key pb pa nb na hb ha (fun h => hne h.symm) hnb
      (by rw [← hra, ← hrb]; exact (List.prefix_append_right_inj S).mpr hpre)

theorem scanned_iff {fs : FS} (hwf : wfAll fs) {S : List String}
    {e : List String × Node} :
    e ∈ scannedEntries fs S ↔ e ∈ fs ∧ S <+: e.1 ∧ e.1 ≠ S := by
  unfold scannedEntries
  rw [List.mem_filter]
  constructor
  · rintro ⟨hmem, hcond⟩
    rw [Bool.and_eq_true, Bool.and_eq_true] at hcond
    refine ⟨hmem, List.isPrefixOf_iff_prefix.mp hcond.1.1, ?_⟩
    have h2 := hcond.1.2
    simpa using h2
  · rintro ⟨hmem, hpre, hne⟩
    refine ⟨hmem, ?_⟩
    rw [Bool.and_eq_true, Bool.and_eq_true]
    refine ⟨⟨List.isPrefixOf_iff_prefix.mpr hpre, by simpa using hne⟩, ?_⟩
    rw [visibleFrom, List.all_eq_true]
    intro q hq
    have hq2 := properPrefixesFrom_sub hpre hq
    exact (hwf.2 e hmem).2 q (mem_properPrefixesFrom_nil.mpr hq2)

theorem linksOf_iff {fs : FS} (hwf : wfAll fs) {S : List String} {nm t : String} :
    (nm, t) ∈ linksOf fs S ↔
    ∃ p tg, (p, Node.symlink tg) ∈ fs ∧ S <+: p ∧ p ≠ S ∧
      nm = joinPath (p.drop S.length) ∧
      get_relative_link_target fs p S = some t := by
  unfold linksOf
  rw [List.mem_filterMap]
  constructor
  · rintro ⟨e, he, hf⟩
    have hsc := (scanned_iff hwf).mp he
    by_cases hv : is_valid_symlink fs e.1 = true
    · rw [if_pos hv] at hf
      obtain ⟨t0, hg, heq⟩ := Option.map_eq_some'.mp hf
      have hle := fsLookup_of_mem hsc.1 hwf.1 ((hwf.2 e hsc.1).1).1
      unfold is_valid_symlink at hv
      rw [hle] at hv
      cases he2 : e.2 with
      | symlink tg =>
        refine ⟨e.1, tg, ?_, hsc.2.1, hsc.2.2, ?_, ?_⟩
        · have : e = (e.1, Node.symlink tg) := by
            cases e; simp only at he2 ⊢; rw [he2]
          rw [← this]
          exact hsc.1
        · injection heq with h1 h2
          rw [← h1]
        · injection heq with h1 h2
          rw [← h2]
          exact hg
      | file d => rw [he2] at hv; simp at hv
      | dir b => rw [he2] at hv; simp at hv
    · rw [if_neg hv] at hf
      cases hf
  · rintro ⟨p, tg, hmem, hpre, hne, hnm, hg⟩
    refine ⟨(p, .symlink tg), (scanned_iff hwf).mpr ⟨hmem, hpre, hne⟩, ?_⟩
    have hlook : fsLookup fs p = some (.symlink tg) :=
      fsLookup_of_mem hmem hwf.1 ((hwf.2 (p, .symlink tg) hmem).1).1
    rw [if_pos (by unfold is_valid_symlink; rw [hlook])]
    rw [hg]
    simp [hnm]

theorem fileEntriesOf_iff {fs : FS} (hwf : wfAll fs) {S : List String}
    {nm : String} {d : Data} :
    (nm, d) ∈ fileEntriesOf fs S ↔
    ∃ p, (p, Node.file d) ∈ fs ∧ S <+: p ∧ p ≠ S ∧
      nm = joinPath (p.drop S.length) := by
  unfold fileEntriesOf
  rw [List.mem_filterMap]
  constructor
  · rintro ⟨e, he, hf⟩
    have hsc := (scanned_iff hwf).mp he
    by_cases hv : is_valid_symlink fs e.1 = true
    · rw [if_pos hv] at hf
      cases hf
    · rw [if_neg hv] at hf
      cases he2 : e.2 with
      | file d0 =>
        rw [he2] at hf
        have hf' : some (joinPath (e.1.drop S.length), d0) = some (nm, d) := hf
        injection hf' with hp
        rw [Prod.mk.injEq] at hp
        refine ⟨e.1, ?_, hsc.2.1, hsc.2.2, hp.1.symm⟩
        have hee : e = (e.1, Node.file d0) := by
          cases e; simp only at he2 ⊢; rw [he2]
        rw [hp.2] at hee
        rw [← hee]
        exact hsc.1
      | symlink tg =>
        rw [he2] at hf
        have hf' : (none : Option (String × Data)) = some (nm, d) := hf
        cases hf'
      | dir b =>
        rw [he2] at hf
        have hf' : (none : Option (String × Data)) = some (nm, d) := hf
        cases hf'
  · rintro ⟨p, hmem, hpre, hne, hnm⟩
    refine ⟨(p, .file d), (scanned_iff hwf).mpr ⟨hmem, hpre, hne⟩, ?_⟩
    have hlook : fsLookup fs p = some (.file d) :=
      fsLookup_of_mem hmem hwf.1 ((hwf.2 (p, .file d) hmem).1).1
    rw [if_neg (by unfold is_valid_symlink; rw [hlook]; simp)]
    simp [hnm]

theorem joinPath_links_json : joinPath ["links.json"] = "links.json" := by decide

theorem splitPath_links_json : splitPath "links.json" = ["links.json"] := by decide

/-- The archive member list a pack produces, in a well-formed world with
no `links.json` at the top of the source: the explicit manifest entry,
then the `links.json` temporary re-archived by the file walk, then the
source's regular files. -/
theorem packEntries_eq {fs : FS} (hwf : wfAll fs) {S : List String}
    (hSdir : isDirTrueAt fs S = true)
    (hnolj : fsLookup fs (S ++ ["links.json"]) = none) :
    packEntries fs S
      = ("links.json", Data.jsonLinks (linksOf fs S))
        :: ("links.json", Data.jsonLinks (linksOf fs S))
        :: fileEntriesOf fs S := by
  have hljne : S ++ ["links.json"] ≠ [] := by simp
  have hnomem : ∀ e ∈ fs, e.1 ≠ S ++ ["links.json"] := by
    intro e he heq
    unfold fsLookup at hnolj
    rw [if_neg hljne] at hnolj
    exact (assocFind_eq_none.mp hnolj) e he heq
  have hfs1 : fsSet fs (S ++ ["links.json"])
      (.file (.jsonLinks (linksOf fs S)))
      = (S ++ ["links.json"], Node.file (.jsonLinks (linksOf fs S))) :: fs := by
    unfold fsSet
    rw [fsRemove_of_not_mem fs _ hnomem]
  have hSneLJ : S ≠ S ++ ["links.json"] := by
    intro heq
    have := congrArg List.length heq
    simp at this
  have hlookfs1 : ∀ q, q ≠ S ++ ["links.json"] →
      fsLookup (fsSet fs (S ++ ["links.json"])
        (.file (.jsonLinks (linksOf fs S)))) q = fsLookup fs q := by
    intro q hq
    exact fsLookup_set_ne fs _ _ _ hq
  have hvisible : ∀ e ∈ fs, S.isPrefixOf e.1 = true → (e.1 == S) = false →
      visibleFrom (fsSet fs (S ++ ["links.json"])
        (.file (.jsonLinks (linksOf fs S)))) S e.1 = visibleFrom fs S e.1 := by
    intro e he hpre _
    unfold visibleFrom
    apply allCongr
    intro q hq
    have hq2 := properPrefixesFrom_sub (List.isPrefixOf_iff_prefix.mp hpre) hq
    have hqne : q ≠ S ++ ["links.json"] := by
      intro heq
      have hdir := (hwf.2 e he).2 q (mem_properPrefixesFrom_nil.mpr hq2)
      rw [isDirTrueAt_spec] at hdir
      rw [heq, hnolj] at hdir
      cases hdir
    exact isDirTrueAt_congr (hlookfs1 q hqne)
  have hcond : (S.isPrefixOf (S ++ ["links.json"])
      && !((S ++ ["links.json"] : List String) == S)
      && visibleFrom (fsSet fs (S ++ ["links.json"])
          (.file (.jsonLinks (linksOf fs S)))) S (S ++ ["links.json"])) = true := by
    rw [Bool.and_eq_true, Bool.and_eq_true]
    refine ⟨⟨List.isPrefixOf_iff_prefix.mpr ⟨_, rfl⟩, ?_⟩, ?_⟩
    · simp only [Bool.not_eq_true']
      rw [beq_eq_false_iff_ne]
      exact fun h => hSneLJ h.symm
    · unfold visibleFrom properPrefixesFrom
      have hlen : (S ++ ["links.json"]).length - S.length = 1 := by
        simp
      rw [hlen]
      have hdrop : (S ++ ["links.json"]).drop S.length = ["links.json"] :=
        List.drop_left S _
      rw [hdrop]
      have hr1 : List.range 1 = [0] := rfl
      simp only [hr1, List.map_cons, List.map_nil, List.take_zero,
        List.append_nil, List.all_cons, List.all_nil, Bool.and_true]
      rw [isDirTrueAt_congr (hlookfs1 S hSneLJ)]
      exact hSdir
  have hscan : scannedEntries (fsSet fs (S ++ ["links.json"])
        (.file (.jsonLinks (linksOf fs S)))) S
      = (S ++ ["links.json"], Node.file (.jsonLinks (linksOf fs S)))
        :: scannedEntries fs S := by
    unfold scannedEntries
    conv_lhs => rw [hfs1]
    have hcond' := hcond
    rw [hfs1] at hcond'
    have hvisible' := hvisible
    rw [hfs1] at hvisible'
    have hstep : List.filter
        (fun e => S.isPrefixOf e.1 && !((e.1 : List String) == S)
          && visibleFrom ((S ++ ["links.json"],
              Node.file (.jsonLinks (linksOf fs S))) :: fs) S e.1)
        ((S ++ ["links.json"], Node.file (.jsonLinks (linksOf fs S))) :: fs)
      = (S ++ ["links.json"], Node.file (.jsonLinks (linksOf fs S)))
        :: List.filter
          (fun e => S.isPrefixOf e.1 && !((e.1 : List String) == S)
            && visibleFrom ((S ++ ["links.json"],
                Node.file (.jsonLinks (linksOf fs S))) :: fs) S e.1)
          fs := List.filter_cons_of_pos hcond'
    rw [hstep]
    congr 1
    apply List.filter_congr
    intro e he
    by_cases hpre : S.isPrefixOf e.1 = true
    · by_cases hne : ((e.1 : List String) == S) = false
      · rw [hpre, hne, hvisible' e he hpre hne]
      · rw [Bool.not_eq_false] at hne
        rw [hne]
        simp
    · rw [Bool.not_eq_true] at hpre
      rw [hpre]
      simp
  have hfe : fileEntriesOf (fsSet fs (S ++ ["links.json"])
        (.file (.jsonLinks (linksOf fs S)))) S
      = ("links.json", Data.jsonLinks (linksOf fs S)) :: fileEntriesOf fs S := by
    unfold fileEntriesOf
    rw [hscan, List.filterMap_cons]
    have hvlj : is_valid_symlink (fsSet fs (S ++ ["links.json"])
        (.file (.jsonLinks (linksOf fs S)))) (S ++ ["links.json"]) = false := by
      unfold is_valid_symlink
      rw [fsLookup_set_self fs _ _ hljne]
    simp only [hvlj, Bool.false_eq_true, if_false, List.drop_left, joinPath_links_json]
    congr 1
    apply List.filterMap_congr
    intro e he
    have hefs : e ∈ fs := ((scanned_iff hwf).mp he).1
    have hene : e.1 ≠ S ++ ["links.json"] := hnomem e hefs
    rw [show is_valid_symlink (fsSet fs (S ++ ["links.json"])
        (.file (.jsonLinks (linksOf fs S)))) e.1 = is_valid_symlink fs e.1 from by
      unfold is_valid_symlink
      rw [hlookfs1 e.1 hene]]
  have hpe : packEntries fs S = ("links.json", Data.jsonLinks (linksOf fs S))
      :: fileEntriesOf (fsSet fs (S ++ ["links.json"])
        (.file (.jsonLinks (linksOf fs S)))) S := rfl
  rw [hpe, hfe]

/-- Unfolding of `package_directory` on both the success and the failure
path of the archive write, given the source resolution. -/
theorem package_directory_eq (fs : FS) (sourceArg S : List String)
    (hres : resolvePath fs sourceArg = some S) :
    package_directory fs sourceArg true =
      (.ok (packEntries fs S),
       fsRemove (fsSet fs (S ++ ["links.json"])
         (.file (.jsonLinks (linksOf fs S)))) (S ++ ["links.json"])) ∧
    package_directory fs sourceArg false =
      (.error .zipWriteFailed,
       fsSet fs (S ++ ["links.json"]) (.file (.jsonLinks (linksOf fs S)))) := by
  unfold package_directory packEntries
  rw [hres]
  exact ⟨rfl, rfl⟩

/-! ## Claim theorems -/

/-- C2 (code bug).  The claim — and spec §8 "Empty tree" — says packing a
directory with no files and no symlinks yields a container with an empty
manifest and zero file entries, and in general exactly one entry named
`links.json`.  The code first writes the manifest into the source
directory and only then walks the tree to collect file entries, so the
temporary `links.json` itself is picked up by that walk: packing the
empty directory `/s` produces an archive with TWO entries named
`links.json` (the intended manifest plus the temporary re-archived as an
ordinary file), and the source is left unchanged. -/
theorem C2_duplicate_manifest :
    (package_directory fsEmptyDir ["s"] true).1 =
      .ok [("links.json", .jsonLinks []), ("links.json", .jsonLinks [])] ∧
    (package_directory fsEmptyDir ["s"] true).2 = fsEmptyDir :=
  ⟨rfl, rfl⟩

/-- C3.  `get_relative_link_target` returns a relative raw target
unchanged (no normalization), and for an absolute raw target returns it
resolved to a real path and re-expressed by `os.path.relpath` against
the resolved source root. -/
theorem C3_link_resolver (fs : FS) (lp S : List String) (t : String)
    (hS : resolvePath fs S = some S)
    (h : fsLookup fs lp = some (.symlink t)) :
    (isAbs t = false → get_relative_link_target fs lp S = some t) ∧
    (isAbs t = true → ∀ rt, resolvePath fs (splitPath t) = some rt →
      get_relative_link_target fs lp S = some (joinPath (relpathAbs rt S))) := by
  constructor
  · intro habs
    unfold get_relative_link_target
    rw [hS, h]
    simp [habs]
  · intro habs rt hrt
    unfold get_relative_link_target
    rw [hS, h]
    simp [habs, hrt]

/-- Witness for C3 at a concrete world: the non-normalized relative
target `../x/../y` is stored verbatim, and the absolute target
`/etc/hosts` is re-expressed relative to the source root `/src`. -/
theorem C3_witness :
    resolvePath fsRT ["src"] = some ["src"] ∧
    fsLookup fsRT ["src", "weird"] = some (.symlink "../x/../y") ∧
    get_relative_link_target fsRT ["src", "weird"] ["src"] = some "../x/../y" ∧
    get_relative_link_target fsRT ["src", "sub", "link_abs"] ["src"]
      = some "../etc/hosts" := by
  refine ⟨rfl, rfl, ?_, ?_⟩
  · exact (C3_link_resolver fsRT ["src", "weird"] ["src"] "../x/../y" rfl rfl).1 rfl
  · exact (C3_link_resolver fsRT ["src", "sub", "link_abs"] ["src"] "/etc/hosts"
      rfl rfl).2 rfl ["etc", "hosts"] rfl

/-- C4 counterexample.  The claim says a colliding occupant that cannot
be removed is reported and the entry skipped, with restoration of the
remaining entries proceeding.  In fact only the `os.symlink` call is
inside the `try`: the manifest of `/a.zip` maps `d` (occupied by a
directory, so `Path.unlink` raises `EISDIR` outside the `try`) and then
`z`, and the whole unpack aborts — `z` is never restored. -/
theorem C4_counterexample :
    unpackage_directory fsDirOcc ["a.zip"] ["t"] alwaysOk
      = (some .unlinkIsDir, fsDirOcc) ∧
    fsLookup fsDirOcc ["t", "z"] = none :=
  ⟨rfl, rfl⟩

/-- C5 counterexample.  The claim says a directory occupant at a
manifest path is removed and replaced by the symlink; in fact
`Path.unlink` raises on a directory and the unpack aborts with the
directory still in place and no symlink created. -/
theorem C5_counterexample :
    unpackage_directory fsDirOcc1 ["a.zip"] ["t"] alwaysOk
      = (some .unlinkIsDir, fsDirOcc1) ∧
    fsLookup fsDirOcc1 ["t", "d"] = some (.dir true) :=
  ⟨rfl, rfl⟩

/-- C5 as amended: during restore, a regular-file or symlink occupant at
a manifest path is unlinked and replaced by a fresh symlink carrying
exactly the manifest's target string; (a directory occupant instead
aborts the unpack, see the counterexample). -/
theorem C5_amended (fs fs1 : FS) (T : List String) (lp lt : String) (occ : Node)
    (habs : isAbs lp = false)
    (hmk : mkdirFold fs [] ((T ++ splitPath lp).dropLast) = (none, fs1))
    (hocc : fsLookup fs1 (T ++ splitPath lp) = some occ)
    (hnotdir : (∃ d, occ = .file d) ∨ (∃ s, occ = .symlink s))
    (hne : T ++ splitPath lp ≠ []) :
    restoreOne fs T lp lt true
      = (none, fsSet (fsRemove fs1 (T ++ splitPath lp)) (T ++ splitPath lp)
          (.symlink lt)) ∧
    fsLookup (restoreOne fs T lp lt true).2 (T ++ splitPath lp)
      = some (.symlink lt) := by
  have h1 : restoreOne fs T lp lt true
      = (none, fsSet (fsRemove fs1 (T ++ splitPath lp)) (T ++ splitPath lp)
          (.symlink lt)) := by
    unfold restoreOne
    simp only [habs, Bool.false_eq_true, if_false, hmk]
    rcases hnotdir with ⟨d, rfl⟩ | ⟨s, rfl⟩ <;> rw [hocc] <;> rfl
  exact ⟨h1, by rw [h1]; exact fsLookup_set_self _ _ _ hne⟩

/-- Witness for the amended C5: a regular file occupies `/t/f`; the
restore step replaces it with a symlink to `tt`. -/
theorem C5_amended_witness :
    isAbs "f" = false ∧
    fsLookup fsFileOcc ["t", "f"] = some (.file (.raw [3])) ∧
    fsLookup (restoreOne fsFileOcc ["t"] "f" "tt" true).2 ["t", "f"]
      = some (.symlink "tt") := by
  refine ⟨rfl, rfl, ?_⟩
  exact (C5_amended fsFileOcc fsFileOcc ["t"] "f" "tt" (.file (.raw [3]))
    rfl rfl rfl (Or.inl ⟨_, rfl⟩) (by simp)).2

/-- C6 counterexample.  The claim says an unreadable subtree makes
`package_directory` fail with no archive produced.  `os.walk`'s default
`onerror=None` silently ignores the failing `scandir`: packing `/s`,
whose subdirectory `/s/sub` is unreadable and holds the file `/s/sub/f`,
succeeds and produces an archive that simply omits `sub/f`. -/
theorem C6_counterexample :
    fsLookup fsUnread ["s", "sub", "f"] = some (.file (.raw [1])) ∧
    (package_directory fsUnread ["s"] true).1 =
      .ok [("links.json", .jsonLinks []), ("links.json", .jsonLinks [])] :=
  ⟨rfl, rfl⟩

/-- C6 as amended: an unreadable subtree is silently skipped, not
propagated — the scan enumerates only entries whose ancestor chain below
the root is readable, entries that fail that test are dropped from the
scan, and `package_directory` still succeeds (when the archive write
itself succeeds). -/
theorem C6_amended (fs : FS) (sourceArg S : List String)
    (hres : resolvePath fs sourceArg = some S) :
    (package_directory fs sourceArg true).1 = .ok (packEntries fs S) ∧
    (∀ e ∈ scannedEntries fs S, visibleFrom fs S e.1 = true) ∧
    (∀ e ∈ fs, visibleFrom fs S e.1 = false → e ∉ scannedEntries fs S) := by
  refine ⟨?_, ?_, ?_⟩
  · rw [(package_directory_eq fs sourceArg S hres).1]
  · intro e he
    have h := (List.mem_filter.mp he).2
    rw [Bool.and_eq_true, Bool.and_eq_true] at h
    exact h.2
  · intro e _ hv hmem
    have h := (List.mem_filter.mp hmem).2
    rw [hv] at h
    simp at h

/-- Witness for the amended C6 at the unreadable-subtree world. -/
theorem C6_amended_witness :
    resolvePath fsUnread ["s"] = some ["s"] ∧
    visibleFrom fsUnread ["s"] ["s", "sub", "f"] = false ∧
    (package_directory fsUnread ["s"] true).1 = .ok (packEntries fsUnread ["s"]) := by
  refine ⟨rfl, rfl, ?_⟩
  exact (C6_amended fsUnread ["s"] ["s"] rfl).1

/-- C7.  A container with no member named `links.json` makes
`zf.read('links.json')` raise `KeyError`: `unpackage_directory` fails
with the manifest-missing error (nothing is extracted), and `main`
catches the exception and exits with status 1. -/
theorem C7_missing_manifest (fs fs1 : FS) (sourceArg targetArg : String)
    (SZ T : List String) (entries : List (String × Data))
    (zipOk : Bool) (symlinkOk : String → Bool)
    (hrs : resolvePath fs (splitPath sourceArg) = some SZ)
    (hrt : resolvePath fs (splitPath targetArg) = some T)
    (hmk : mkdirFold fs [] T = (none, fs1))
    (hz : fsLookup fs1 SZ = some (.file (.zip entries)))
    (hnolj : ∀ e ∈ entries, e.1 ≠ "links.json")
    (hnd : pathIsDir fs (splitPath sourceArg) = false)
    (hsz : pathSuffix sourceArg = ".zip")
    (ht : (pathIsDir fs (splitPath targetArg)
        || !fsExistsFollow fs (splitPath targetArg)) = true) :
    unpackage_directory fs (splitPath sourceArg) (splitPath targetArg) symlinkOk
      = (some .manifestMissing, fs1) ∧
    main fs sourceArg targetArg zipOk symlinkOk = (1, fs1) := by
  have hfilter : entries.filter (fun e => e.1 == "links.json") = [] :=
    List.filter_eq_nil_iff.mpr (fun e he => by simp [hnolj e he])
  have hu : unpackage_directory fs (splitPath sourceArg) (splitPath targetArg)
      symlinkOk = (some .manifestMissing, fs1) := by
    unfold unpackage_directory
    simp only [hrs, hrt, hmk, hz, hfilter]
    rfl
  refine ⟨hu, ?_⟩
  unfold main
  simp [hnd, hsz, ht, hu]

/-- Witness for C7: the container `/a.zip` holds only a member `x`. -/
theorem C7_witness :
    (∀ e ∈ [(("x" : String), Data.raw [5])], e.1 ≠ "links.json") ∧
    main fsNoManifest "/a.zip" "/t" true alwaysOk
      = (1, (["t"], Node.dir true) :: fsNoManifest) := by
  refine ⟨by decide, ?_⟩
  exact (C7_missing_manifest fsNoManifest ((["t"], Node.dir true) :: fsNoManifest)
    "/a.zip" "/t" ["a.zip"] ["t"] [("x", .raw [5])] true alwaysOk
    rfl rfl rfl rfl (by decide) rfl rfl rfl).2

/-- C8 counterexample.  The claim says an invalid source/target
combination exits non-zero with no side effects.  A nonexistent source
merely carrying a `.zip` suffix is dispatched to unpack, which creates
the target directory (line 100) before it ever tries to open the
container: the run exits 1, but the fresh directory `/newdir` has been
created in the previously empty world. -/
theorem C8_counterexample :
    main [] "/missing.zip" "/newdir" true alwaysOk
      = (1, [(["newdir"], .dir true)]) ∧
    fsLookup [(["newdir"], Node.dir true)] ["newdir"] = some (.dir true) ∧
    fsLookup ([] : FS) ["newdir"] = none :=
  ⟨rfl, rfl, rfl⟩

/-- C8 as amended: when the argument combination matches neither
dispatch pattern (the `else` branch of `main`), the process exits 1 and
the filesystem is untouched; (when a nonexistent source merely has a
`.zip` suffix, unpack is attempted and may create the target directory
before failing — see the counterexample). -/
theorem C8_amended (fs : FS) (sourceArg targetArg : String) (zipOk : Bool)
    (symlinkOk : String → Bool)
    (h1 : (pathIsDir fs (splitPath sourceArg)
        && (pathSuffix targetArg == ".zip")) = false)
    (h2 : ((pathSuffix sourceArg == ".zip")
        && (pathIsDir fs (splitPath targetArg)
            || !fsExistsFollow fs (splitPath targetArg))) = false) :
    main fs sourceArg targetArg zipOk symlinkOk = (1, fs) := by
  unfold main
  simp only [h1, h2]
  rfl

/-- Witness for the amended C8: source `/s` is a directory but the
target lacks the `.zip` suffix, so neither dispatch matches. -/
theorem C8_amended_witness :
    (pathIsDir fsEmptyDir (splitPath "/s")
        && (pathSuffix "/t" == ".zip")) = false ∧
    ((pathSuffix "/s" == ".zip")
        && (pathIsDir fsEmptyDir (splitPath "/t")
            || !fsExistsFollow fsEmptyDir (splitPath "/t"))) = false ∧
    main fsEmptyDir "/s" "/t" true alwaysOk = (1, fsEmptyDir) :=
  ⟨rfl, rfl, C8_amended fsEmptyDir "/s" "/t" true alwaysOk rfl rfl⟩

/-- C9 counterexample.  The claim says the temporary `links.json` is
removed on both the success and the failure path of the pack.  There is
no `try/finally`: when the archive write fails, the exception propagates
before the `unlink` on line 89, and `links.json` remains in the source
tree. -/
theorem C9_counterexample :
    (package_directory fsEmptyDir ["s"] false).1 = .error .zipWriteFailed ∧
    fsLookup (package_directory fsEmptyDir ["s"] false).2 ["s", "links.json"]
      = some (.file (.jsonLinks [])) ∧
    fsLookup fsEmptyDir ["s", "links.json"] = none :=
  ⟨rfl, rfl, rfl⟩

/-- C9 as amended: on the success path the temporary `links.json` is
removed and the source tree is restored exactly; on the failure path of
the archive write it is left behind in the source tree. -/
theorem C9_amended (fs : FS) (sourceArg S : List String)
    (hres : resolvePath fs sourceArg = some S)
    (hno : ∀ e ∈ fs, e.1 ≠ S ++ ["links.json"]) :
    (package_directory fs sourceArg true).2 = fs ∧
    (package_directory fs sourceArg true).1 = .ok (packEntries fs S) ∧
    fsLookup (package_directory fs sourceArg false).2 (S ++ ["links.json"])
      = some (.file (.jsonLinks (linksOf fs S))) := by
  refine ⟨?_, ?_, ?_⟩
  · rw [(package_directory_eq fs sourceArg S hres).1]
    exact (fsRemove_fsSet fs _ _).trans (fsRemove_of_not_mem fs _ hno)
  · rw [(package_directory_eq fs sourceArg S hres).1]
  · rw [(package_directory_eq fs sourceArg S hres).2]
    exact fsLookup_set_self _ _ _ (by simp)

/-- Witness for the amended C9 at the empty source directory. -/
theorem C9_amended_witness :
    resolvePath fsEmptyDir ["s"] = some ["s"] ∧
    (∀ e ∈ fsEmptyDir, e.1 ≠ ["s", "links.json"]) ∧
    (package_directory fsEmptyDir ["s"] true).2 = fsEmptyDir := by
  refine ⟨rfl, by decide, ?_⟩
  exact (C9_amended fsEmptyDir ["s"] ["s"] rfl (by decide)).1

/-- Pairwise prefix-incomparability of the mapped positions of a list
gives incomparability at any two distinct members. -/
theorem pairwise_incomp_positions {α : Type _} {f : α → List String}
    {l : List α} (hpw : (l.map f).Pairwise incomp) {a b : α}
    (ha : a ∈ l) (hb : b ∈ l) (hab : a ≠ b) : incomp (f a) (f b) := by
  have h := List.pairwise_map.mp hpw
  exact h.forall (fun x y hxy => incomp_symm hxy) ha hb hab

/-- C4 as amended: over a manifest of relative, legal, pairwise
prefix-incomparable paths that are clean for the current target-area
invariant, the restore loop never aborts whatever the `os.symlink`
oracle says; an entry whose `os.symlink` call succeeds ends as the
symlink carrying its stored target, and an entry whose `os.symlink`
call fails is merely skipped — the loop continues and that path ends
empty.  (Only the `os.symlink` call is inside the `try`: a directory
occupant or a `mkdir` conflict instead aborts the whole unpack, see the
counterexample.) -/
theorem C4_amended (T : List String) (okf : String → Bool)
    (links : List (String × String)) (w : FS)
    (files : List (List String × Data)) (syms : List (List String × String))
    (dirs : List (List String))
    (hinv : underSt w T files syms dirs)
    (hvals : ∀ l ∈ links, isAbs l.1 = false ∧ validComps (splitPath l.1))
    (hconds : ∀ l ∈ links,
      (∀ fd ∈ files, incomp fd.1 (splitPath l.1)) ∧
      (∀ st ∈ syms, incomp st.1 (splitPath l.1)) ∧
      (∀ r ∈ dirs, r ≠ splitPath l.1))
    (hpw : (links.map (fun l => splitPath l.1)).Pairwise incomp) :
    (restoreAll w T okf links).1 = none ∧
    (∀ l ∈ links, okf l.1 = true →
      fsLookup (restoreAll w T okf links).2 (T ++ splitPath l.1)
        = some (.symlink l.2)) ∧
    (∀ l ∈ links, okf l.1 = false →
      fsLookup (restoreAll w T okf links).2 (T ++ splitPath l.1) = none) := by
  have hres := restoreAll_fold T okf links w files syms dirs hinv hvals hconds hpw
  refine ⟨hres.1, ?_, ?_⟩
  · intro l hl hok
    have hmem : (splitPath l.1, l.2) ∈ restoredOf links okf ++ syms := by
      apply List.mem_append.mpr
      left
      unfold restoredOf
      exact List.mem_filterMap.mpr ⟨l, hl, by rw [hok]; rfl⟩
    exact (hres.2.2.2.1 _ hmem).1
  · intro l hl hok
    apply underSt_none hres.2 (hvals l hl).2.1
    intro hacc
    rcases hacc with hx | hx | hx | ⟨p, hp, hppre, hpne⟩
    · obtain ⟨fd, hfd, heq⟩ := List.mem_map.mp hx
      exact ((hconds l hl).1 fd hfd).1 (by rw [heq])
    · obtain ⟨st, hst, heq⟩ := List.mem_map.mp hx
      rcases List.mem_append.mp hst with hnew | hold
      · obtain ⟨l', hl', hif⟩ := List.mem_filterMap.mp hnew
        by_cases hok' : okf l'.1 = true
        · rw [if_pos hok'] at hif
          injection hif with hif
          have h1 : splitPath l'.1 = st.1 := by rw [← hif]
          have hlne : l' ≠ l := by
            intro h
            rw [h, hok] at hok'
            cases hok'
          have hinc := pairwise_incomp_positions hpw hl' hl hlne
          rw [h1, heq] at hinc
          exact not_self_incomp hinc rfl
        · rw [if_neg hok'] at hif
          cases hif
      · exact ((hconds l hl).2.1 st hold).1 (by rw [heq])
    · rcases List.mem_append.mp hx with hnew | hold
      · unfold linkDirsOf at hnew
        rw [List.mem_flatten] at hnew
        obtain ⟨ll, hll, hcl⟩ := hnew
        obtain ⟨l', hl', heq⟩ := List.mem_map.mp hll
        rw [← heq] at hcl
        obtain ⟨hcpre, hcne⟩ := mem_properPrefixesFrom_nil.mp hcl
        by_cases hlne : l' = l
        · rw [hlne] at hcne
          exact hcne rfl
        · have hinc := pairwise_incomp_positions hpw hl hl'
            (fun h => hlne h.symm)
          exact hinc.1 hcpre
      · exact (hconds l hl).2.2 _ hold rfl
    · rcases List.mem_append.mp hp with hp | hp
      · obtain ⟨fd, hfd, heq⟩ := List.mem_map.mp hp
        rw [← heq] at hppre
        exact ((hconds l hl).1 fd hfd).2 hppre
      · obtain ⟨st, hst, heq⟩ := List.mem_map.mp hp
        rw [← heq] at hppre
        rcases List.mem_append.mp hst with hnew | hold
        · obtain ⟨l', hl', hif⟩ := List.mem_filterMap.mp hnew
          by_cases hok' : okf l'.1 = true
          · rw [if_pos hok'] at hif
            injection hif with hif
            have h1 : splitPath l'.1 = st.1 := by rw [← hif]
            have hlne : l' ≠ l := by
              intro h
              rw [h, hok] at hok'
              cases hok'
            have hinc := pairwise_incomp_positions hpw hl hl'
              (fun h => hlne h.symm)
            rw [h1] at hinc
            exact hinc.1 hppre
          · rw [if_neg hok'] at hif
            cases hif
        · exact ((hconds l hl).2.1 st hold).2 hppre

/-- Witness for the amended C4: the manifest maps `a` and `b` into the
empty target directory `/t`; the `os.symlink` oracle fails exactly on
`b`.  The restore loop still succeeds, `a` ends as a symlink to `x`,
and `b` is skipped — nothing is created there. -/
theorem C4_amended_witness :
    (fun s => s == "a") "b" = false ∧
    (restoreAll [(["t"], Node.dir true)] ["t"] (fun s => s == "a")
      [("a", "x"), ("b", "y")]).1 = none ∧
    fsLookup (restoreAll [(["t"], Node.dir true)] ["t"] (fun s => s == "a")
      [("a", "x"), ("b", "y")]).2 ["t", "a"] = some (.symlink "x") ∧
    fsLookup (restoreAll [(["t"], Node.dir true)] ["t"] (fun s => s == "a")
      [("a", "x"), ("b", "y")]).2 ["t", "b"] = none := by
  have hinv : underSt [(["t"], Node.dir true)] ["t"] [] [] [] := by
    refine ⟨rfl, ?_, ?_, ?_, ?_, ?_⟩
    · intro fd hfd
      cases hfd
    · intro st hst
      cases hst
    · intro r hr
      cases hr
    · intro e he h1 h2
      rcases List.mem_singleton.mp he with rfl
      exact absurd rfl h2
    · decide
  have h := C4_amended ["t"] (fun s => s == "a") [("a", "x"), ("b", "y")]
    [(["t"], Node.dir true)] [] [] [] hinv (by decide)
    (by
      intro l hl
      refine ⟨?_, ?_, ?_⟩
      · intro fd hfd
        cases hfd
      · intro st hst
        cases hst
      · intro r hr
        cases hr)
    (by decide)
  exact ⟨rfl, h.1,
    h.2.1 ("a", "x") (by decide) rfl,
    h.2.2 ("b", "y") (by decide) rfl⟩

/-- C10.  After extraction, `unpackage_directory` unconditionally
deletes a regular file named `links.json` at the top level of the
target: in the world `fsPreLJd d0` the target `/t` already holds a
regular file `/t/links.json` with arbitrary content `d0` that is not in
the archive; extraction itself never touches that path (the manifest
member is skipped, so the occupant still carries `d0` after the
extraction loop), yet after the unpack — which otherwise succeeds —
the path is gone. -/
theorem C10_target_manifest_clobbered (d0 : Data) :
    fsLookup (fsPreLJd d0) ["t", "links.json"] = some (.file d0) ∧
    fsLookup (extractAll (fsPreLJd d0) ["t"]
        [("links.json", .jsonLinks [("l", "a.txt")]), ("b.txt", .raw [9])]).2
      ["t", "links.json"] = some (.file d0) ∧
    (unpackage_directory (fsPreLJd d0) ["a.zip"] ["t"] alwaysOk).1 = none ∧
    fsLookup (unpackage_directory (fsPreLJd d0) ["a.zip"] ["t"] alwaysOk).2
      ["t", "links.json"] = none ∧
    fsLookup (unpackage_directory (fsPreLJd d0) ["a.zip"] ["t"] alwaysOk).2
      ["t", "b.txt"] = some (.file (.raw [9])) :=
  ⟨rfl, rfl, rfl, rfl, rfl⟩

/-! ## Helper lemmas: towards the round trip -/

/-- The relative branch of `get_relative_link_target` (qpkg.py lines
29-30): a relative raw target is returned unchanged. -/
theorem grlt_rel {fs : FS} {lp S : List String} {t : String}
    (hS : resolvePath fs S = some S) (h : fsLookup fs lp = some (.symlink t))
    (habs : isAbs t = false) : get_relative_link_target fs lp S = some t := by
  unfold get_relative_link_target
  rw [hS, h]
  simp [habs]

/-- The absolute branch of `get_relative_link_target` (qpkg.py lines
32-37): an absolute raw target is resolved and re-expressed with
`os.path.relpath` against the resolved source root. -/
theorem grlt_abs {fs : FS} {lp S rt : List String} {t : String}
    (hS : resolvePath fs S = some S) (h : fsLookup fs lp = some (.symlink t))
    (habs : isAbs t = true) (hrt : resolvePath fs (splitPath t) = some rt) :
    get_relative_link_target fs lp S = some (joinPath (relpathAbs rt S)) := by
  unfold get_relative_link_target
  rw [hS, h]
  simp [habs, hrt]

/-- In a well-formed world, two entries with different nodes have
different paths. -/
theorem mem_ne_of_nodes {fs : FS} (hwf : wfAll fs) {p q : List String}
    {m n : Node} (hp : (p, m) ∈ fs) (hq : (q, n) ∈ fs) (hmn : m ≠ n) :
    p ≠ q := by
  intro h
  subst h
  have h1 := fsLookup_of_mem hp hwf.1 ((hwf.2 _ hp).1).1
  have h2 := fsLookup_of_mem hq hwf.1 ((hwf.2 _ hq).1).1
  rw [h1] at h2
  injection h2 with h2
  exact hmn h2

/-- Decomposition of a pack file entry: the underlying source entry,
with the legality of its source-relative component path and the
split/join round trip of its arcname. -/
theorem fileEntriesOf_comps {fs : FS} (hwf : wfAll fs) {S : List String}
    {nm : String} {d : Data} (h : (nm, d) ∈ fileEntriesOf fs S) :
    ∃ p, (p, Node.file d) ∈ fs ∧ S <+: p ∧ p ≠ S ∧
      validComps (p.drop S.length) ∧ nm = joinPath (p.drop S.length) ∧
      splitPath nm = p.drop S.length := by
  obtain ⟨p, hmem, hpre, hne, hnm⟩ := (fileEntriesOf_iff hwf).mp h
  have hv := validComps_drop ((hwf.2 _ hmem).1) hpre hne
  refine ⟨p, hmem, hpre, hne, hv, hnm, ?_⟩
  rw [hnm, splitPath_joinPath _ hv]

/-- Decomposition of a manifest entry: the underlying symlink entry,
with the legality of its source-relative component path, the
split/join round trip of its key, and the key's relativeness. -/
theorem linksOf_comps {fs : FS} (hwf : wfAll fs) {S : List String}
    {nm t : String} (h : (nm, t) ∈ linksOf fs S) :
    ∃ p tg, (p, Node.symlink tg) ∈ fs ∧ S <+: p ∧ p ≠ S ∧
      validComps (p.drop S.length) ∧ nm = joinPath (p.drop S.length) ∧
      splitPath nm = p.drop S.length ∧ isAbs nm = false := by
  obtain ⟨p, tg, hmem, hpre, hne, hnm, _⟩ := (linksOf_iff hwf).mp h
  have hv := validComps_drop ((hwf.2 _ hmem).1) hpre hne
  refine ⟨p, tg, hmem, hpre, hne, hv, hnm, ?_, ?_⟩
  · rw [hnm, splitPath_joinPath _ hv]
  · rw [hnm]
    exact isAbs_joinPath _ hv

/-- When the source top level holds no `links.json`, the
source-relative position of any source entry is prefix-incomparable
with `["links.json"]`. -/
theorem drop_incomp_links_json {fs : FS} (hwf : wfAll fs) {S : List String}
    (hnolj : fsLookup fs (S ++ ["links.json"]) = none)
    {p : List String} {n : Node} (hmem : (p, n) ∈ fs) (hpre : S <+: p)
    (hne : p ≠ S) :
    incomp (p.drop S.length) ["links.json"] := by
  obtain ⟨r, hr⟩ := hpre
  have hdrop : p.drop S.length = r := by
    rw [← hr, List.drop_left]
  have hrne : r ≠ [] := by
    intro h0
    rw [h0, List.append_nil] at hr
    exact hne hr.symm
  have hcontra : p ≠ S ++ ["links.json"] := by
    intro heq
    have hlook := fsLookup_of_mem hmem hwf.1 ((hwf.2 (p, n) hmem).1).1
    rw [heq, hnolj] at hlook
    cases hlook
  rw [hdrop]
  constructor
  · intro hpr
    have hlen1 : 1 ≤ r.length := by
      cases r with
      | nil => exact absurd rfl hrne
      | cons a l => simp
    have hreq : r = ["links.json"] := hpr.eq_of_length (by
      have h2 := hpr.length_le
      simp at h2 ⊢
      omega)
    exact hcontra (by rw [← hr, hreq])
  · intro hpr
    by_cases hreq : r = ["links.json"]
    · exact hcontra (by rw [← hr, hreq])
    · have hq : (S ++ ["links.json"]) ∈ properPrefixesFrom [] p := by
        apply mem_properPrefixesFrom_nil.mpr
        refine ⟨?_, ?_⟩
        · rw [← hr]
          exact (List.prefix_append_right_inj S).mpr hpr
        · intro heq
          rw [← hr] at heq
          exact hreq (List.append_cancel_left heq).symm
      have hdir := (hwf.2 (p, n) hmem).2 _ hq
      rw [isDirTrueAt_spec, hnolj] at hdir
      cases hdir

/-- No pack file entry is named `links.json` when the source top level
holds none. -/
theorem fileEntriesOf_name_ne_lj {fs : FS} (hwf : wfAll fs) {S : List String}
    (hnolj : fsLookup fs (S ++ ["links.json"]) = none)
    {nm : String} {d : Data} (h : (nm, d) ∈ fileEntriesOf fs S) :
    nm ≠ "links.json" := by
  obtain ⟨p, hmem, hpre, hne, _, _, hsp⟩ := fileEntriesOf_comps hwf h
  intro heq
  have hinc := drop_incomp_links_json hwf hnolj hmem hpre hne
  rw [← hsp, heq, splitPath_links_json] at hinc
  exact not_self_incomp hinc rfl

/-- The scan's output has pairwise distinct entry paths. -/
theorem scanned_pairwise_keys {fs : FS} (hwf : wfAll fs) (S : List String) :
    (scannedEntries fs S).Pairwise (fun a b => a.1 ≠ b.1) := by
  have hnd : (fs.map (fun e => e.1)).Pairwise (fun a b => a ≠ b) := hwf.1
  have h0 : fs.Pairwise (fun a b => a.1 ≠ b.1) := List.pairwise_map.mp hnd
  unfold scannedEntries
  exact h0.filter _

/-- The arcnames of the pack's file entries split to pairwise
prefix-incomparable component paths. -/
theorem fileEntriesOf_pairwise {fs : FS} (hwf : wfAll fs) (S : List String) :
    (fileEntriesOf fs S).Pairwise
      (fun x y => incomp (splitPath x.1) (splitPath y.1)) := by
  have h2 : (scannedEntries fs S).Pairwise (fun a b =>
      (a ∈ fs ∧ S <+: a.1 ∧ a.1 ≠ S) ∧ (b ∈ fs ∧ S <+: b.1 ∧ b.1 ≠ S) ∧
      a.1 ≠ b.1) :=
    (scanned_pairwise_keys hwf S).imp_of_mem (fun ha hb hne =>
      ⟨(scanned_iff hwf).mp ha, (scanned_iff hwf).mp hb, hne⟩)
  unfold fileEntriesOf
  apply pairwise_filterMap_of h2
  intro a b a' b' hR hfa hfb
  obtain ⟨⟨hamem, haS, haneS⟩, ⟨hbmem, hbS, hbneS⟩, hne⟩ := hR
  by_cases hva : is_valid_symlink fs a.1 = true
  · rw [if_pos hva] at hfa
    cases hfa
  by_cases hvb : is_valid_symlink fs b.1 = true
  · rw [if_pos hvb] at hfb
    cases hfb
  rw [if_neg hva] at hfa
  rw [if_neg hvb] at hfb
  cases ha2 : a.2 with
  | symlink t => rw [ha2] at hfa; cases hfa
  | dir bb => rw [ha2] at hfa; cases hfa
  | file da =>
    cases hb2 : b.2 with
    | symlink t => rw [hb2] at hfb; cases hfb
    | dir bb => rw [hb2] at hfb; cases hfb
    | file db =>
      rw [ha2] at hfa
      rw [hb2] at hfb
      injection hfa with hfa
      injection hfb with hfb
      have hainc := positions_rel_incomp hwf
        (show (a.1, Node.file da) ∈ fs from by rw [← ha2]; exact hamem)
        (show (b.1, Node.file db) ∈ fs from by rw [← hb2]; exact hbmem)
        haS hbS hne (fun b0 h => Node.noConfusion h)
        (fun b0 h => Node.noConfusion h)
      have hva' : validComps (a.1.drop S.length) :=
        validComps_drop ((hwf.2 a hamem).1) haS haneS
      have hvb' : validComps (b.1.drop S.length) :=
        validComps_drop ((hwf.2 b hbmem).1) hbS hbneS
      have ha1 : a'.1 = joinPath (a.1.drop S.length) := by rw [← hfa]
      have hb1 : b'.1 = joinPath (b.1.drop S.length) := by rw [← hfb]
      rw [ha1, hb1, splitPath_joinPath _ hva', splitPath_joinPath _ hvb']
      exact hainc

/-- The manifest keys split to pairwise prefix-incomparable component
paths. -/
theorem linksOf_pairwise {fs : FS} (hwf : wfAll fs) (S : List String) :
    (linksOf fs S).Pairwise
      (fun x y => incomp (splitPath x.1) (splitPath y.1)) := by
  have h2 : (scannedEntries fs S).Pairwise (fun a b =>
      (a ∈ fs ∧ S <+: a.1 ∧ a.1 ≠ S) ∧ (b ∈ fs ∧ S <+: b.1 ∧ b.1 ≠ S) ∧
      a.1 ≠ b.1) :=
    (scanned_pairwise_keys hwf S).imp_of_mem (fun ha hb hne =>
      ⟨(scanned_iff hwf).mp ha, (scanned_iff hwf).mp hb, hne⟩)
  unfold linksOf
  apply pairwise_filterMap_of h2
  intro a b a' b' hR hfa hfb
  obtain ⟨⟨hamem, haS, haneS⟩, ⟨hbmem, hbS, hbneS⟩, hne⟩ := hR
  by_cases hva : is_valid_symlink fs a.1 = true
  case neg => rw [if_neg hva] at hfa; cases hfa
  by_cases hvb : is_valid_symlink fs b.1 = true
  case neg => rw [if_neg hvb] at hfb; cases hfb
  rw [if_pos hva] at hfa
  rw [if_pos hvb] at hfb
  obtain ⟨ta, _, hta⟩ := Option.map_eq_some'.mp hfa
  obtain ⟨tb, _, htb⟩ := Option.map_eq_some'.mp hfb
  have hla : fsLookup fs a.1 = some a.2 :=
    fsLookup_of_mem hamem hwf.1 ((hwf.2 a hamem).1).1
  have hlb : fsLookup fs b.1 = some b.2 :=
    fsLookup_of_mem hbmem hwf.1 ((hwf.2 b hbmem).1).1
  cases ha2 : a.2 with
  | file da =>
    exfalso
    unfold is_valid_symlink at hva
    rw [hla, ha2] at hva
    exact Bool.noConfusion hva
  | dir bb =>
    exfalso
    unfold is_valid_symlink at hva
    rw [hla, ha2] at hva
    exact Bool.noConfusion hva
  | symlink sa =>
    cases hb2 : b.2 with
    | file db =>
      exfalso
      unfold is_valid_symlink at hvb
      rw [hlb, hb2] at hvb
      exact Bool.noConfusion hvb
    | dir bb =>
      exfalso
      unfold is_valid_symlink at hvb
      rw [hlb, hb2] at hvb
      exact Bool.noConfusion hvb
    | symlink sb =>
      have hainc := positions_rel_incomp hwf
        (show (a.1, Node.symlink sa) ∈ fs from by rw [← ha2]; exact hamem)
        (show (b.1, Node.symlink sb) ∈ fs from by rw [← hb2]; exact hbmem)
        haS hbS hne (fun b0 h => Node.noConfusion h)
        (fun b0 h => Node.noConfusion h)
      have hva' : validComps (a.1.drop S.length) :=
        validComps_drop ((hwf.2 a hamem).1) haS haneS
      have hvb' : validComps (b.1.drop S.length) :=
        validComps_drop ((hwf.2 b hbmem).1) hbS hbneS
      have ha1 : a'.1 = joinPath (a.1.drop S.length) := by rw [← hta]
      have hb1 : b'.1 = joinPath (b.1.drop S.length) := by rw [← htb]
      rw [ha1, hb1, splitPath_joinPath _ hva', splitPath_joinPath _ hvb']
      exact hainc

/-- The manifest-named members of what a pack produces are exactly the
two copies of the manifest, and the file placements its extraction will
perform are exactly the file entries of the source scan. -/
theorem packEntries_filter_lj {fs : FS} (hwf : wfAll fs) {S : List String}
    (hSdir : isDirTrueAt fs S = true)
    (hnolj : fsLookup fs (S ++ ["links.json"]) = none) :
    (packEntries fs S).filter (fun e => e.1 == "links.json")
      = [("links.json", Data.jsonLinks (linksOf fs S)),
         ("links.json", Data.jsonLinks (linksOf fs S))] ∧
    extractedOf (packEntries fs S)
      = (fileEntriesOf fs S).map (fun e => (splitPath e.1, e.2)) := by
  rw [packEntries_eq hwf hSdir hnolj]
  constructor
  · have h1 : (fileEntriesOf fs S).filter (fun e => e.1 == "links.json")
        = [] := by
      apply List.filter_eq_nil_iff.mpr
      intro e he
      have hne := fileEntriesOf_name_ne_lj hwf hnolj
        (show (e.1, e.2) ∈ fileEntriesOf fs S from he)
      simp [hne]
    rw [List.filter_cons, List.filter_cons, h1]
    rfl
  · unfold extractedOf
    rw [List.filter_cons, List.filter_cons]
    rw [if_neg (by simp), if_neg (by simp)]
    have h2 : (fileEntriesOf fs S).filter (fun e => !(e.1 == "links.json"))
        = fileEntriesOf fs S := by
      apply List.filter_eq_self.mpr
      intro e he
      have hne := fileEntriesOf_name_ne_lj hwf hnolj
        (show (e.1, e.2) ∈ fileEntriesOf fs S from he)
      simp [hne]
    rw [h2]

/-- The whole unpack pipeline into a fresh target: when the two paths
resolve, the target's chain is creatable, nothing sits at or strictly
below the target, the container holds the member list whose last
manifest-named member parses to `links`, and the members and manifest
are legal and pairwise clean, then `unpackage_directory` succeeds and
the final world satisfies the target-area invariant carrying exactly
the extracted files and the restored symlinks. -/
theorem unpack_pipeline (w : FS) (Z T : List String)
    (entries : List (String × Data)) (links : List (String × String))
    (hresZ : resolvePath w Z = some Z)
    (hresT : resolvePath w T = some T)
    (hTne : T ≠ [])
    (hTnone : fsLookup w T = none)
    (hchain : ∀ k, 0 < k → k ≤ T.length → isDirOrNoneAt w (T.take k) = true)
    (hZch : ∀ k, 0 < k → k ≤ T.length → Z ≠ T.take k)
    (hTfresh : ∀ e ∈ w, T <+: e.1 → T = e.1)
    (hzip : fsLookup w Z = some (.file (.zip entries)))
    (hfilter : (entries.filter (fun e => e.1 == "links.json")).getLast?
      = some ("links.json", Data.jsonLinks links))
    (hval : ∀ e ∈ entries, e.1 ≠ "links.json" → validComps (splitPath e.1))
    (hpwE : (extractedOf entries).Pairwise (fun a b => incomp a.1 b.1))
    (hljE : ∀ fd ∈ extractedOf entries, incomp fd.1 ["links.json"])
    (hvalsL : ∀ l ∈ links, isAbs l.1 = false ∧ validComps (splitPath l.1))
    (hcondsL : ∀ l ∈ links, ∀ fd ∈ extractedOf entries,
      incomp fd.1 (splitPath l.1))
    (hpwL : (links.map (fun l => splitPath l.1)).Pairwise incomp) :
    (unpackage_directory w Z T alwaysOk).1 = none ∧
    underSt (unpackage_directory w Z T alwaysOk).2 T (extractedOf entries)
      (restoredOf links alwaysOk) (linkDirsOf links) := by
  have hTlen : 0 < T.length := List.length_pos.mpr hTne
  have hchain' : ∀ k, 0 < k → k ≤ T.length →
      isDirOrNoneAt w ([] ++ T.take k) = true := by
    intro k h1 h2
    rw [List.nil_append]
    exact hchain k h1 h2
  have hspec := mkdirFold_spec T w [] hchain'
  simp only [List.nil_append] at hspec
  rcases hmkeq : mkdirFold w [] T with ⟨me, fs1⟩
  rw [hmkeq] at hspec
  dsimp only at hspec
  obtain ⟨hmk1, hmkch, hmkfr, hmkmem⟩ := hspec
  subst hmk1
  have hlookT : fsLookup fs1 T = some (.dir true) := by
    have h1 := (hmkch T.length hTlen (le_refl _)).1
    rw [List.take_length] at h1
    exact h1 hTnone
  have hanc1 : ∀ q ∈ properPrefixesFrom [] T, isDirAnyAt fs1 q = true := by
    intro q hq
    obtain ⟨hqpre, hqne⟩ := mem_properPrefixesFrom_nil.mp hq
    by_cases hq0 : q = []
    · rw [hq0]
      unfold isDirAnyAt
      rw [fsLookup_nil]
    · have hql : 0 < q.length := List.length_pos.mpr hq0
      have hqle : q.length ≤ T.length := hqpre.length_le
      have hqtake : q = T.take q.length := List.prefix_iff_eq_take.mp hqpre
      unfold isDirAnyAt
      rw [hqtake]
      cases hw0 : fsLookup w (T.take q.length) with
      | none =>
        rw [(hmkch q.length hql hqle).1 hw0]
      | some n =>
        rw [(hmkch q.length hql hqle).2 n hw0]
        have hd := hchain q.length hql hqle
        unfold isDirOrNoneAt at hd
        rw [hw0] at hd
        cases n with
        | dir b => rfl
        | file d => exact Bool.noConfusion hd
        | symlink s => exact Bool.noConfusion hd
  have hacc1 : ∀ e ∈ fs1, T <+: e.1 → T ≠ e.1 →
      posAccounted (e.1.drop T.length) [] [] [] := by
    intro e he hpre hne
    exfalso
    rcases hmkmem e he with hw0 | ⟨k, hk0, hkle, hek⟩
    · exact hne (hTfresh e hw0 hpre)
    · have hTk : T.length ≤ k := by
        have hl := hpre.length_le
        rw [hek] at hl
        simp at hl
        omega
      apply hne
      rw [hek, le_antisymm hkle hTk, List.take_length]
  have hinv1 : underSt fs1 T [] [] [] := by
    refine ⟨hlookT, ?_, ?_, ?_, hacc1, hanc1⟩ <;> intro x hx <;> cases hx
  have hz1 : fsLookup fs1 Z = some (.file (.zip entries)) := by
    rw [hmkfr Z (fun k hk0 hkle => hZch k hk0 hkle)]
    exact hzip
  have hext := extractAll_fold T entries fs1 [] [] [] hinv1 hval
    (fun e he hne => by
      refine ⟨?_, ?_, ?_⟩ <;> intro x hx <;> cases hx) hpwE
  rcases hexteq : extractAll fs1 T entries with ⟨ee, fs2⟩
  rw [hexteq] at hext
  dsimp only at hext
  obtain ⟨hee, hinv2'⟩ := hext
  subst hee
  have hinv2 : underSt fs2 T (extractedOf entries) [] [] :=
    underSt_congr (fun x => by simp) (fun x => Iff.rfl) (fun x => Iff.rfl)
      hinv2'
  have hnoLJ2 : fsLookup fs2 (T ++ ["links.json"]) = none := by
    apply underSt_fresh hinv2 (by simp) ?_ ?_ ?_
    · intro fd hfd
      exact hljE fd hfd
    · intro st hst
      cases hst
    · intro r hr
      cases hr
  have hrem : removeLinksJsonAt fs2 T = (none, fs2) :=
    removeLinksJsonAt_of_none hnoLJ2
  have hrest := restoreAll_fold T alwaysOk links fs2 (extractedOf entries)
    [] [] hinv2 hvalsL
    (fun l hl => by
      refine ⟨hcondsL l hl, ?_, ?_⟩ <;> intro x hx <;> cases hx)
    hpwL
  have hun : unpackage_directory w Z T alwaysOk
      = restoreAll fs2 T alwaysOk links := by
    unfold unpackage_directory
    simp only [hresZ, hresT, hmkeq, hz1, hfilter, hexteq, hrem]
  rw [hun]
  refine ⟨hrest.1, ?_⟩
  exact underSt_congr (fun x => Iff.rfl) (fun x => by simp) (fun x => by simp)
    hrest.2

/-- C1.  Round trip.  In a well-formed world whose source tree `S` (a
readable directory, itself resolving to itself, with no `links.json` at
its top level) holds regular files, directories and symlinks: packing
succeeds, returns the member list `packEntries fs S` and leaves the
source tree exactly as it was; and unpacking the archive written at a
fresh path `Z` into a fresh target `T` (both resolving to themselves,
`T`'s ancestors creatable) succeeds and reproduces, under `T`, every
regular file of the source byte-for-byte, every relative symlink with
its raw target string verbatim, and every absolute symlink as a symlink
whose raw target string is the original target resolved and
re-expressed relative to the source root. -/
theorem C1_round_trip (fs : FS) (S T Z : List String)
    (hwf : wfAll fs) (hSdir : isDirTrueAt fs S = true)
    (hresS : resolvePath fs S = some S)
    (hnolj : fsLookup fs (S ++ ["links.json"]) = none)
    (hT : fsLookup fs T = none) (hTne : T ≠ [])
    (hZT : incomp Z T)
    (hresZ : resolvePath (fsSet fs Z (.file (.zip (packEntries fs S)))) Z
      = some Z)
    (hresT : resolvePath (fsSet fs Z (.file (.zip (packEntries fs S)))) T
      = some T)
    (hTanc : ∀ k, 0 < k → k < T.length →
      isDirOrNoneAt (fsSet fs Z (.file (.zip (packEntries fs S))))
        (T.take k) = true) :
    package_directory fs S true = (.ok (packEntries fs S), fs) ∧
    (unpackage_directory (fsSet fs Z (.file (.zip (packEntries fs S))))
        Z T alwaysOk).1 = none ∧
    (∀ rp d, (S ++ rp, Node.file d) ∈ fs → rp ≠ [] →
      fsLookup (unpackage_directory
          (fsSet fs Z (.file (.zip (packEntries fs S)))) Z T alwaysOk).2
        (T ++ rp) = some (.file d)) ∧
    (∀ rp t, (S ++ rp, Node.symlink t) ∈ fs → rp ≠ [] → isAbs t = false →
      fsLookup (unpackage_directory
          (fsSet fs Z (.file (.zip (packEntries fs S)))) Z T alwaysOk).2
        (T ++ rp) = some (.symlink t)) ∧
    (∀ rp t rt, (S ++ rp, Node.symlink t) ∈ fs → rp ≠ [] → isAbs t = true →
      resolvePath fs (splitPath t) = some rt →
      fsLookup (unpackage_directory
          (fsSet fs Z (.file (.zip (packEntries fs S)))) Z T alwaysOk).2
        (T ++ rp) = some (.symlink (joinPath (relpathAbs rt S)))) := by
  have hZne : Z ≠ [] := by
    intro h0
    apply hZT.1
    rw [h0]
    exact List.nil_prefix
  have hTneZ : T ≠ Z := by
    intro h0
    apply hZT.1
    rw [h0]
  have hno : ∀ e ∈ fs, e.1 ≠ S ++ ["links.json"] := by
    intro e he heq
    unfold fsLookup at hnolj
    rw [if_neg (by simp)] at hnolj
    exact (assocFind_eq_none.mp hnolj) e he heq
  have hpack : package_directory fs S true = (.ok (packEntries fs S), fs) := by
    rw [(package_directory_eq fs S S hresS).1, fsRemove_fsSet,
      fsRemove_of_not_mem fs _ hno]
  have hTnoneC : fsLookup (fsSet fs Z (.file (.zip (packEntries fs S)))) T
      = none := by
    rw [fsLookup_set_ne fs Z T _ hTneZ]
    exact hT
  have hchainC : ∀ k, 0 < k → k ≤ T.length →
      isDirOrNoneAt (fsSet fs Z (.file (.zip (packEntries fs S))))
        (T.take k) = true := by
    intro k hk0 hkle
    rcases Nat.lt_or_ge k T.length with hlt | hge
    · exact hTanc k hk0 hlt
    · have hkeq : k = T.length := le_antisymm hkle hge
      rw [hkeq, List.take_length]
      unfold isDirOrNoneAt
      rw [hTnoneC]
  have hZchC : ∀ k, 0 < k → k ≤ T.length → Z ≠ T.take k := by
    intro k hk0 hkle heq
    apply hZT.1
    rw [heq]
    exact List.take_prefix _ _
  have hTfreshC : ∀ e ∈ fsSet fs Z (.file (.zip (packEntries fs S))),
      T <+: e.1 → T = e.1 := by
    intro e he hpre
    rcases List.mem_cons.mp he with rfl | he
    · exact absurd hpre hZT.2
    · have hefs := (mem_fsRemove he).1
      by_contra hne
      have hq : T ∈ properPrefixesFrom [] e.1 :=
        mem_properPrefixesFrom_nil.mpr ⟨hpre, hne⟩
      have hdir := (hwf.2 e hefs).2 T hq
      rw [isDirTrueAt_spec, hT] at hdir
      cases hdir
  have hzipC : fsLookup (fsSet fs Z (.file (.zip (packEntries fs S)))) Z
      = some (.file (.zip (packEntries fs S))) :=
    fsLookup_set_self fs Z _ hZne
  have hfl := packEntries_filter_lj hwf hSdir hnolj
  have hfilterC : ((packEntries fs S).filter
        (fun e => e.1 == "links.json")).getLast?
      = some ("links.json", Data.jsonLinks (linksOf fs S)) := by
    rw [hfl.1]
    rfl
  have hvalC : ∀ e ∈ packEntries fs S, e.1 ≠ "links.json" →
      validComps (splitPath e.1) := by
    rw [packEntries_eq hwf hSdir hnolj]
    intro e he hne
    rcases List.mem_cons.mp he with rfl | he
    · exact absurd rfl hne
    rcases List.mem_cons.mp he with rfl | he
    · exact absurd rfl hne
    obtain ⟨p, hmem, hpre, hneS, hv, hnm, hsp⟩ := fileEntriesOf_comps hwf
      (show (e.1, e.2) ∈ fileEntriesOf fs S from he)
    rw [hsp]
    exact hv
  have hpwEC : (extractedOf (packEntries fs S)).Pairwise
      (fun a b => incomp a.1 b.1) := by
    rw [hfl.2]
    exact List.pairwise_map.mpr (fileEntriesOf_pairwise hwf S)
  have hljEC : ∀ fd ∈ extractedOf (packEntries fs S),
      incomp fd.1 ["links.json"] := by
    intro fd hfd
    rw [hfl.2] at hfd
    obtain ⟨e, he, heq⟩ := List.mem_map.mp hfd
    obtain ⟨p, hmem, hpre, hneS, hv, hnm, hsp⟩ := fileEntriesOf_comps hwf
      (show (e.1, e.2) ∈ fileEntriesOf fs S from he)
    have hfd1 : fd.1 = p.drop S.length := by
      rw [← heq]
      exact hsp
    rw [hfd1]
    exact drop_incomp_links_json hwf hnolj hmem hpre hneS
  have hvalsLC : ∀ l ∈ linksOf fs S,
      isAbs l.1 = false ∧ validComps (splitPath l.1) := by
    intro l hl
    obtain ⟨p, tg, hmem, hpre, hneS, hv, hnm, hsp, habs⟩ := linksOf_comps hwf
      (show (l.1, l.2) ∈ linksOf fs S from hl)
    refine ⟨habs, ?_⟩
    rw [hsp]
    exact hv
  have hcondsLC : ∀ l ∈ linksOf fs S, ∀ fd ∈ extractedOf (packEntries fs S),
      incomp fd.1 (splitPath l.1) := by
    intro l hl fd hfd
    rw [hfl.2] at hfd
    obtain ⟨e, he, heq⟩ := List.mem_map.mp hfd
    obtain ⟨p, hpmem, hppre, hpneS, hpv, hpnm, hpsp⟩ := fileEntriesOf_comps
      hwf (show (e.1, e.2) ∈ fileEntriesOf fs S from he)
    obtain ⟨q, tg, hqmem, hqpre, hqneS, hqv, hqnm, hqsp, _⟩ := linksOf_comps
      hwf (show (l.1, l.2) ∈ linksOf fs S from hl)
    have hfd1 : fd.1 = p.drop S.length := by
      rw [← heq]
      exact hpsp
    have hpq : p ≠ q := mem_ne_of_nodes hwf hpmem hqmem
      (fun h => Node.noConfusion h)
    have hinc := positions_rel_incomp hwf hpmem hqmem hppre hqpre hpq
      (fun b h => Node.noConfusion h) (fun b h => Node.noConfusion h)
    rw [hfd1, hqsp]
    exact hinc
  have hpwLC : ((linksOf fs S).map (fun l => splitPath l.1)).Pairwise
      incomp := List.pairwise_map.mpr (linksOf_pairwise hwf S)
  have hpipe := unpack_pipeline (fsSet fs Z (.file (.zip (packEntries fs S))))
    Z T (packEntries fs S) (linksOf fs S) hresZ hresT hTne hTnoneC hchainC
    hZchC hTfreshC hzipC hfilterC hvalC hpwEC hljEC hvalsLC hcondsLC hpwLC
  refine ⟨hpack, hpipe.1, ?_, ?_, ?_⟩
  · intro rp d hmem hrpne
    have hneS : S ++ rp ≠ S := by
      intro h0
      apply hrpne
      have h1 : S ++ rp = S ++ [] := by
        rw [h0, List.append_nil]
      exact List.append_cancel_left h1
    have hpreS : S <+: S ++ rp := ⟨rp, rfl⟩
    have hvrp : validComps rp := by
      have h1 := validComps_drop ((hwf.2 _ hmem).1) hpreS hneS
      rwa [List.drop_left] at h1
    have hmemFe : (joinPath rp, d) ∈ fileEntriesOf fs S :=
      (fileEntriesOf_iff hwf).mpr ⟨S ++ rp, hmem, hpreS, hneS,
        by rw [List.drop_left]⟩
    have hmemEx : (rp, d) ∈ extractedOf (packEntries fs S) := by
      rw [hfl.2]
      apply List.mem_map.mpr
      refine ⟨(joinPath rp, d), hmemFe, ?_⟩
      show (splitPath (joinPath rp), d) = (rp, d)
      rw [splitPath_joinPath _ hvrp]
    exact (hpipe.2.2.1 (rp, d) hmemEx).1
  · intro rp t hmem hrpne habs
    have hneS : S ++ rp ≠ S := by
      intro h0
      apply hrpne
      have h1 : S ++ rp = S ++ [] := by
        rw [h0, List.append_nil]
      exact List.append_cancel_left h1
    have hpreS : S <+: S ++ rp := ⟨rp, rfl⟩
    have hvrp : validComps rp := by
      have h1 := validComps_drop ((hwf.2 _ hmem).1) hpreS hneS
      rwa [List.drop_left] at h1
    have hlook : fsLookup fs (S ++ rp) = some (.symlink t) :=
      fsLookup_of_mem hmem hwf.1 ((hwf.2 _ hmem).1).1
    have hmemL : (joinPath rp, t) ∈ linksOf fs S :=
      (linksOf_iff hwf).mpr ⟨S ++ rp, t, hmem, hpreS, hneS,
        by rw [List.drop_left], grlt_rel hresS hlook habs⟩
    have hmemR : (rp, t) ∈ restoredOf (linksOf fs S) alwaysOk := by
      unfold restoredOf
      apply List.mem_filterMap.mpr
      refine ⟨(joinPath rp, t), hmemL, ?_⟩
      show (if alwaysOk (joinPath rp) then some (splitPath (joinPath rp), t)
        else none) = some (rp, t)
      rw [splitPath_joinPath _ hvrp]
      rfl
    exact (hpipe.2.2.2.1 (rp, t) hmemR).1
  · intro rp t rt hmem hrpne habs hrt
    have hneS : S ++ rp ≠ S := by
      intro h0
      apply hrpne
      have h1 : S ++ rp = S ++ [] := by
        rw [h0, List.append_nil]
      exact List.append_cancel_left h1
    have hpreS : S <+: S ++ rp := ⟨rp, rfl⟩
    have hvrp : validComps rp := by
      have h1 := validComps_drop ((hwf.2 _ hmem).1) hpreS hneS
      rwa [List.drop_left] at h1
    have hlook : fsLookup fs (S ++ rp) = some (.symlink t) :=
      fsLookup_of_mem hmem hwf.1 ((hwf.2 _ hmem).1).1
    have hmemL : (joinPath rp, joinPath (relpathAbs rt S)) ∈ linksOf fs S :=
      (linksOf_iff hwf).mpr ⟨S ++ rp, t, hmem, hpreS, hneS,
        by rw [List.drop_left], grlt_abs hresS hlook habs hrt⟩
    have hmemR : (rp, joinPath (relpathAbs rt S))
        ∈ restoredOf (linksOf fs S) alwaysOk := by
      unfold restoredOf
      apply List.mem_filterMap.mpr
      refine ⟨(joinPath rp, joinPath (relpathAbs rt S)), hmemL, ?_⟩
      show (if alwaysOk (joinPath rp) then
        some (splitPath (joinPath rp), joinPath (relpathAbs rt S))
        else none) = some (rp, joinPath (relpathAbs rt S))
      rw [splitPath_joinPath _ hvrp]
      rfl
    exact (hpipe.2.2.2.1 (rp, joinPath (relpathAbs rt S)) hmemR).1

/-- Witness for C1 at the concrete world `fsRT` (spec §8's scenario plus
a non-normalized relative symlink): packing `/src` and unpacking the
archive written at `/out.zip` into the fresh `/tgt` reproduces the file
`a.txt` byte-for-byte, the relative symlinks `link_rel` and `weird`
verbatim, and the absolute symlink `sub/link_abs` as `../etc/hosts`. -/
theorem C1_witness :
    package_directory fsRT ["src"] true
      = (.ok (packEntries fsRT ["src"]), fsRT) ∧
    (unpackage_directory
        (fsSet fsRT ["out.zip"] (.file (.zip (packEntries fsRT ["src"]))))
        ["out.zip"] ["tgt"] alwaysOk).1 = none ∧
    fsLookup (unpackage_directory
        (fsSet fsRT ["out.zip"] (.file (.zip (packEntries fsRT ["src"]))))
        ["out.zip"] ["tgt"] alwaysOk).2 ["tgt", "a.txt"]
      = some (.file (.raw [104, 105])) ∧
    fsLookup (unpackage_directory
        (fsSet fsRT ["out.zip"] (.file (.zip (packEntries fsRT ["src"]))))
        ["out.zip"] ["tgt"] alwaysOk).2 ["tgt", "link_rel"]
      = some (.symlink "a.txt") ∧
    fsLookup (unpackage_directory
        (fsSet fsRT ["out.zip"] (.file (.zip (packEntries fsRT ["src"]))))
        ["out.zip"] ["tgt"] alwaysOk).2 ["tgt", "weird"]
      = some (.symlink "../x/../y") ∧
    fsLookup (unpackage_directory
        (fsSet fsRT ["out.zip"] (.file (.zip (packEntries fsRT ["src"]))))
        ["out.zip"] ["tgt"] alwaysOk).2 ["tgt", "sub", "link_abs"]
      = some (.symlink "../etc/hosts") := by
  have h := C1_round_trip fsRT ["src"] ["tgt"] ["out.zip"] (by decide) rfl rfl
    rfl rfl (by decide) (by decide) rfl rfl
    (fun k hk0 hk1 => absurd hk0 (by simp at hk1; omega))
  refine ⟨h.1, h.2.1, ?_, ?_, ?_, ?_⟩
  · exact h.2.2.1 ["a.txt"] (.raw [104, 105])
      (List.mem_cons_of_mem _ (List.mem_cons_self _ _)) (by simp)
  · exact h.2.2.2.1 ["link_rel"] "a.txt"
      (List.mem_cons_of_mem _ (List.mem_cons_of_mem _
        (List.mem_cons_self _ _))) (by simp) rfl
  · exact h.2.2.2.1 ["weird"] "../x/../y"
      (List.mem_cons_of_mem _ (List.mem_cons_of_mem _
        (List.mem_cons_of_mem _ (List.mem_cons_self _ _)))) (by simp) rfl
  · exact h.2.2.2.2 ["sub", "link_abs"] "/etc/hosts" ["etc", "hosts"]
      (List.mem_cons_of_mem _ (List.mem_cons_of_mem _
        (List.mem_cons_of_mem _ (List.mem_cons_of_mem _
          (List.mem_cons_of_mem _ (List.mem_cons_self _ _))))))
      (by simp) rfl rfl

end Qpkg

